import Mathlib

/-!
Verification of the agent-wall security firewall against its natural-language
specification.  The development shallowly embeds the TypeScript core
(`packages/core/src`): pure functions become Lean functions, stateful classes
become explicit state passing, and external runtime facilities (the JavaScript
`RegExp` engine, `node:crypto` HMAC, Unicode NFC normalization, the minimatch
library, the filesystem) are either modelled concretely from their documented
semantics or taken as explicit function parameters with the properties the
claims need.

Strings are modelled as `List Char` (`Str`), matching JavaScript strings at
the code-point level; all embedded string functions are executable.
-/

namespace AgentWall

/-- Model of a JavaScript string: a list of Unicode code points. -/
abbrev Str := List Char

/-- Coerce a Lean string literal into the model string type. -/
def str (s : String) : Str := s.data

/-- UTF-8 byte length of a string (`Buffer.byteLength(text, "utf-8")`). -/
def utf8Len (s : Str) : Nat := (s.map Char.utf8Size).sum

/-- Rule actions of the policy engine (`RuleAction` in policy-engine.ts). -/
inductive RuleAction where
  | allow
  | deny
  | prompt
deriving DecidableEq, Repr

/-- Policy modes (`PolicyMode` in policy-engine.ts). -/
inductive PolicyMode where
  | standard
  | strict
deriving DecidableEq, Repr

/-- Response scanner actions (`ResponseAction` in response-scanner.ts). -/
inductive ResponseAction where
  | pass
  | redact
  | block
deriving DecidableEq, Repr

/-- Render a rule action the way TypeScript template literals do. -/
def RuleAction.toStr : RuleAction → Str
  | .allow => str "allow"
  | .deny => str "deny"
  | .prompt => str "prompt"

/-- Decimal rendering of a natural number, as JavaScript number-to-string
interpolation produces for the integers used in rate-limit messages. -/
def natToStr (n : Nat) : Str := (Nat.repr n).data

/-- Split a string at every occurrence of the separator character, keeping
empty pieces, as JavaScript `String.split` does for a one-character
separator. -/
def splitBy (sep : Char) : Str → List Str
  | [] => [[]]
  | c :: t =>
    if c = sep then [] :: splitBy sep t
    else
      match splitBy sep t with
      | s :: rest => (c :: s) :: rest
      | [] => [[c]]

/-- JavaScript `String.trim`: drop whitespace from both ends.  The model uses
`Char.isWhitespace`, which covers the ASCII whitespace appearing in policy
patterns. -/
def jsTrim (s : Str) : Str :=
  ((s.dropWhile Char.isWhitespace).reverse.dropWhile Char.isWhitespace).reverse

/-- Lowercase a string character-by-character (JavaScript `toLowerCase` for
the ASCII range used by the alias table and substring matching). -/
def lowerStr (s : Str) : Str := s.map Char.toLower

/-- Whether `pat` occurs as a contiguous substring of `s`
(JavaScript `String.includes`). -/
def strIncludes (s pat : Str) : Bool :=
  match s with
  | [] => decide (pat = [])
  | _ :: t => decide (pat <+: s) || strIncludes t pat

/-- Star expansion for the glob matcher: try the continuation `k` (matching
the rest of the pattern) at the current position and at every later suffix,
consuming only characters a `*` may match (not `/`, and not a leading `.` of
a segment unless the `dot` option is set). -/
def starLoop (dot : Bool) (k : Str → Bool → Bool) : (s : Str) → (atStart : Bool) → Bool
  | [], atStart => k [] atStart
  | c :: st, atStart =>
    k (c :: st) atStart ||
      (decide (c ≠ '/') && !(atStart && !dot && decide (c = '.')) &&
        starLoop dot k st false)

/-- Model of the minimatch library's glob matcher with its default options
(case-sensitive; `*` and `?` do not cross `/`; a wildcard does not match a
leading `.` of a path segment unless the `dot` option is set).  `atStart`
records whether the current input position begins a path segment. -/
def globMatch (dot : Bool) : (pat : Str) → (s : Str) → (atStart : Bool) → Bool
  | [], s, _ => s.isEmpty
  | p :: pt, s, atStart =>
    if p = '*' then starLoop dot (globMatch dot pt) s atStart
    else if p = '?' then
      match s with
      | [] => false
      | c :: st =>
        decide (c ≠ '/') && !(atStart && !dot && decide (c = '.')) &&
          globMatch dot pt st false
    else
      match s with
      | [] => false
      | c :: st => decide (p = c) && globMatch dot pt st (decide (c = '/'))

/-- `minimatch(s, pat)` with default options, as used for tool names. -/
def minimatchDefault (s pat : Str) : Bool := globMatch false pat s true

/-- `minimatch(s, pat, { dot: true })`, as used for argument values. -/
def minimatchDot (s pat : Str) : Bool := globMatch true pat s true

/-- JavaScript regular-expression line terminators, which `.` does not
match. -/
def isLineTerm (c : Char) : Bool :=
  c = '\n' || c = '\r' || c = ' ' || c = ' '

/-- Star expansion for the matcher of the regular expression produced by
`safeGlobToRegex` (policy-engine.ts): `*` is compiled to `.*`, so it may
consume any run of non-line-terminator characters. -/
def regexStarLoop (k : Str → Bool) : (s : Str) → Bool
  | [] => k []
  | c :: st => k (c :: st) || (!isLineTerm c && regexStarLoop k st)

/-- Full-match semantics of the compiled `safeGlobToRegex` pattern (see
`safeGlobRegexTest` below): case-insensitive, `*` is any run of non-line-
terminator characters, `?` one such character, other characters literal. -/
def globRegexMatch : (pat : Str) → (s : Str) → Bool
  | [], s => s.isEmpty
  | p :: pt, s =>
    if p = '*' then regexStarLoop (globRegexMatch pt) s
    else if p = '?' then
      match s with
      | [] => false
      | c :: st => !isLineTerm c && globRegexMatch pt st
    else
      match s with
      | [] => false
      | c :: st => decide (p.toLower = c.toLower) && globRegexMatch pt st

/-- `safeGlobToRegex(p)` followed by `.test(s)`.  Patterns longer than 500
characters are rejected (`safeGlobToRegex` returns `null`, so the call site
contributes no match). -/
def safeGlobRegexTest (pat s : Str) : Bool :=
  if 500 < pat.length then false else globRegexMatch pat s

/-- The path segment consisting of one dot. -/
def dotSeg : Str := ['.']

/-- The path segment consisting of two dots. -/
def dotDotSeg : Str := ['.', '.']

/-- Join path segments with `/` separators. -/
def pathJoinSegs : List Str → Str
  | [] => []
  | [s] => s
  | s :: rest => s ++ '/' :: pathJoinSegs rest

/-- Segment resolution of Node's `path.posix.normalize`: empty and `.`
segments are dropped; `..` pops the previous segment, except that above-root
`..` segments are kept for relative paths and dropped for absolute ones.
`stack` holds the resolved segments in reverse order. -/
def pathResolveSegs (allowAbove : Bool) : (stack : List Str) → (segs : List Str) → List Str
  | stack, [] => stack.reverse
  | stack, seg :: rest =>
    if seg = [] ∨ seg = dotSeg then pathResolveSegs allowAbove stack rest
    else if seg = dotDotSeg then
      match stack with
      | [] => pathResolveSegs allowAbove (if allowAbove then [dotDotSeg] else []) rest
      | top :: tl =>
        if top = dotDotSeg then pathResolveSegs allowAbove (dotDotSeg :: stack) rest
        else pathResolveSegs allowAbove tl rest
    else pathResolveSegs allowAbove (seg :: stack) rest

/-- Node's `path.posix.normalize`: resolve `.` and `..` segments and repeated
separators, preserving a leading `/` (absolute path) and a trailing `/`. -/
def posixNormalize (p : Str) : Str :=
  if p = [] then dotSeg
  else
    let isAbs := p.head? = some '/'
    let trailing := p.getLast? = some '/'
    let segs := pathResolveSegs (!isAbs) [] (splitBy '/' p)
    let body := pathJoinSegs segs
    if body = [] then
      if isAbs then ['/'] else if trailing then '.' :: ['/'] else dotSeg
    else
      let b2 := if trailing then body ++ ['/'] else body
      if isAbs then '/' :: b2 else b2

/-- `normalizePath` (policy-engine.ts): replace backslashes with forward
slashes, then `path.posix.normalize`. -/
def normalizePath (p : Str) : Str :=
  posixNormalize (p.map (fun c => if c = '\\' then '/' else c))

/-- `looksLikePath` (policy-engine.ts). -/
def looksLikePath (v : Str) : Bool :=
  strIncludes v (str "/") || strIncludes v (str "\\") ||
    decide (v.head? = some '.') || decide (v.head? = some '~')

/-- `normalizeValue` (policy-engine.ts): Unicode NFC normalization, then path
normalization for path-like values.  NFC is the JavaScript runtime's
`String.prototype.normalize("NFC")`, passed in as the function `nfc`. -/
def normalizeValue (nfc : Str → Str) (value : Str) : Str :=
  let n := nfc value
  if looksLikePath n then normalizePath n else n

/-- `PATH_KEY_ALIASES` (policy-engine.ts). -/
def pathKeyAliases : List (Str × List Str) :=
  [ (str "path",
      [str "file", str "filepath", str "file_path", str "filename",
       str "file_name", str "target", str "source", str "destination",
       str "dest", str "src", str "uri", str "url"]),
    (str "command",
      [str "cmd", str "shell", str "exec", str "script", str "run"]),
    (str "content",
      [str "text", str "body", str "data", str "input", str "message"]) ]

/-- `getKeyAliases` (policy-engine.ts): the lowercased key plus its alias
table row, whether the key is canonical or itself an alias. -/
def getKeyAliases (key : Str) : List Str :=
  let lowerKey := lowerStr key
  match pathKeyAliases.find? (fun row => row.1 = lowerKey) with
  | some row => lowerKey :: row.2
  | none =>
    match pathKeyAliases.find? (fun row => lowerKey ∈ row.2) with
    | some row => row.1 :: row.2
    | none => [lowerKey]

/-- A tool call as the policy engine sees it (`ToolCallParams`).  Argument
values are modelled as strings; the engine stringifies every value with
`String(rawValue)` before matching, which is the identity on strings. -/
structure ToolCallParams where
  name : Str
  arguments : List (Str × Str)
deriving DecidableEq, Repr

/-- Case-insensitive lookup of the first alias present among the actual
arguments (the alias loop in `PolicyEngine.matchArguments`). -/
def lookupAliasValue : (aliases : List Str) → (args : List (Str × Str)) → Option Str
  | [], _ => none
  | a :: rest, args =>
    match args.find? (fun kv => lowerStr kv.1 = a) with
    | some kv => some kv.2
    | none => lookupAliasValue rest args

/-- One pattern alternative against a normalized argument value: glob with
`dot: true`, then the bounded glob-to-regex matcher for wildcard patterns,
then case-insensitive substring for wildcard-free patterns. -/
def argPatternMatches (strValue p : Str) : Bool :=
  minimatchDot strValue p ||
    (if strIncludes p (str "*") || strIncludes p (str "?") then
       safeGlobRegexTest p strValue
     else false) ||
    (if !strIncludes p (str "*") && !strIncludes p (str "?") then
       strIncludes (lowerStr strValue) (lowerStr p)
     else false)

/-- `PolicyEngine.matchArguments`: every rule argument pattern must find a
value (via aliases) whose normalization matches one `|`-alternative. -/
def matchArguments (nfc : Str → Str) :
    (ruleArgs : List (Str × Str)) → (actualArgs : List (Str × Str)) → Bool
  | [], _ => true
  | (key, pattern) :: rest, actualArgs =>
    match lookupAliasValue (getKeyAliases key) actualArgs with
    | none => false
    | some rawValue =>
      let strValue := normalizeValue nfc rawValue
      (((splitBy '|' pattern).map jsTrim).any fun p => argPatternMatches strValue p) &&
        matchArguments nfc rest actualArgs

/-- Rate-limit configuration (`RateLimitConfig`). -/
structure RateLimitConfig where
  maxCalls : Nat
  windowSeconds : Nat
deriving DecidableEq, Repr

/-- A policy rule (`PolicyRule`).  `rule.match?.arguments` is flattened into
one option: a `match` object without `arguments` constrains nothing, exactly
as in `matchesRule`. -/
structure PolicyRule where
  name : Str
  tool : Str
  matchArgs : Option (List (Str × Str))
  action : RuleAction
  message : Option Str
  rateLimit : Option RateLimitConfig
deriving DecidableEq, Repr

/-- Policy configuration (`PolicyConfig`); fields the claims do not touch
(`responseScanning`, `security`) are carried by the scanner model instead. -/
structure PolicyConfig where
  version : Nat
  mode : Option PolicyMode
  defaultAction : Option RuleAction
  globalRateLimit : Option RateLimitConfig
  rules : List PolicyRule
deriving DecidableEq, Repr

/-- Policy verdict (`PolicyVerdict`). -/
structure PolicyVerdict where
  action : RuleAction
  rule : Option Str
  message : Str
deriving DecidableEq, Repr

/-- Rate-limiter buckets: timestamp lists keyed by bucket name
(`RateLimiter.buckets`); absent keys are empty buckets. -/
def Buckets := Str → List Nat

/-- The fresh rate limiter: all buckets empty. -/
def emptyBuckets : Buckets := fun _ => []

/-- Replace one bucket. -/
def bucketsSet (b : Buckets) (k : Str) (v : List Nat) : Buckets :=
  fun k' => if k' = k then v else b k'

/-- `RateLimiter.check`: prune timestamps outside the window, deny when the
bucket is full, otherwise push and allow. -/
def rateCheck (b : Buckets) (key : Str) (cfg : RateLimitConfig) (now : Nat) :
    Bool × Buckets :=
  let ts := (b key).filter fun t => now - t < cfg.windowSeconds * 1000
  if cfg.maxCalls ≤ ts.length then (false, bucketsSet b key ts)
  else (true, bucketsSet b key (ts ++ [now]))

/-- `PolicyEngine.matchToolName`: split the rule pattern on `|`, trim each
alternative, and glob-match it against the tool name with minimatch's
default options. -/
def matchToolName (pattern toolName : Str) : Bool :=
  ((splitBy '|' pattern).map jsTrim).any fun p => minimatchDefault toolName p

/-- `PolicyEngine.matchesRule`: NFC-normalize the tool name, match it against
the rule's tool pattern, then match the rule's argument patterns if any. -/
def matchesRule (nfc : Str → Str) (rule : PolicyRule) (tc : ToolCallParams) : Bool :=
  let normalizedToolName := nfc tc.name
  matchToolName rule.tool normalizedToolName &&
    (match rule.matchArgs with
     | some ra => matchArguments nfc ra tc.arguments
     | none => true)

/-- Message of the global rate-limit denial. -/
def globalRateMsg (g : RateLimitConfig) : Str :=
  str "Global rate limit exceeded (" ++ natToStr g.maxCalls ++
    str " calls per " ++ natToStr g.windowSeconds ++ str "s)"

/-- Synthesized message of a per-rule rate-limit denial. -/
def ruleRateMsg (r : PolicyRule) (rl : RateLimitConfig) : Str :=
  str "Rate limit exceeded for rule \"" ++ r.name ++ str "\" (" ++
    natToStr rl.maxCalls ++ str " per " ++ natToStr rl.windowSeconds ++ str "s)"

/-- Synthesized message of a matched rule's verdict. -/
def ruleVerdictMsg (r : PolicyRule) : Str :=
  (if r.action = .deny then str "Blocked"
   else if r.action = .prompt then str "Approval required"
   else str "Allowed") ++ str " by rule \"" ++ r.name ++ str "\""

/-- The verdict when no rule matched (step 3 of `PolicyEngine.evaluate`). -/
def defaultVerdict (cfg : PolicyConfig) : PolicyVerdict :=
  let isStrict := cfg.mode = some .strict
  let da := if isStrict then RuleAction.deny else cfg.defaultAction.getD .prompt
  { action := da
    rule := none
    message :=
      if isStrict then str "Zero-trust mode: no matching allow rule. Denied by default."
      else str "No matching rule. Default action: " ++ da.toStr }

/-- The rule loop of `PolicyEngine.evaluate` (step 2): first match wins; a
matching rule with an exhausted rate limit denies under its own name. -/
def evalRules (nfc : Str → Str) (cfg : PolicyConfig) (tc : ToolCallParams) (now : Nat) :
    (rules : List PolicyRule) → Buckets → PolicyVerdict × Buckets
  | [], b => (defaultVerdict cfg, b)
  | r :: rest, b =>
    if matchesRule nfc r tc then
      match r.rateLimit with
      | some rl =>
        let res := rateCheck b (str "rule:" ++ r.name) rl now
        if !res.1 then
          ({ action := .deny, rule := some r.name,
             message := r.message.getD (ruleRateMsg r rl) }, res.2)
        else
          ({ action := r.action, rule := some r.name,
             message := r.message.getD (ruleVerdictMsg r) }, res.2)
      | none =>
        ({ action := r.action, rule := some r.name,
           message := r.message.getD (ruleVerdictMsg r) }, b)
    else evalRules nfc cfg tc now rest b

/-- `PolicyEngine.evaluate`: global rate limit first, then the rule loop,
then the default action.  The rate limiter's clock (`Date.now()`) is the
explicit `now`; the runtime's NFC normalization is the parameter `nfc`. -/
def evaluate (nfc : Str → Str) (cfg : PolicyConfig) (b : Buckets)
    (tc : ToolCallParams) (now : Nat) : PolicyVerdict × Buckets :=
  match cfg.globalRateLimit with
  | some g =>
    let res := rateCheck b (str "__global__") g now
    if !res.1 then
      ({ action := .deny, rule := some (str "__global_rate_limit__"),
         message := globalRateMsg g }, res.2)
    else evalRules nfc cfg tc now cfg.rules res.2
  | none => evalRules nfc cfg tc now cfg.rules b

/-- Fold `PolicyEngine.evaluate` over a sequence of timed tool calls,
threading the rate limiter's buckets and collecting the verdicts (the proxy
calls `evaluate` once per `tools/call`). -/
def runEval (nfc : Str → Str) (cfg : PolicyConfig) :
    Buckets → List (ToolCallParams × Nat) → List PolicyVerdict × Buckets
  | b, [] => ([], b)
  | b, (tc, now) :: rest =>
    let r := evaluate nfc cfg b tc now
    let rr := runEval nfc cfg r.2 rest
    (r.1 :: rr.1, rr.2)

/-- A configuration with only a global rate limit: no rules, standard mode,
default action allow. -/
def cfgGlobalRL (m w : Nat) : PolicyConfig :=
  { version := 1, mode := none, defaultAction := some .allow,
    globalRateLimit := some ⟨m, w⟩, rules := [] }

/-- The verdict denying a call because the global rate limit is exhausted. -/
def globalDenyVerdict (m w : Nat) : PolicyVerdict :=
  { action := .deny, rule := some (str "__global_rate_limit__"),
    message := globalRateMsg ⟨m, w⟩ }

/-- A fixed tool call used to exercise the rate limiter. -/
def tcRead : ToolCallParams := { name := str "read_file", arguments := [] }

/-- An allow rule for `read_file` carrying its own rate limit. -/
def ruleRL (name : Str) (m w : Nat) : PolicyRule :=
  { name := name, tool := str "read_file", matchArgs := none,
    action := .allow, message := none, rateLimit := some ⟨m, w⟩ }

/-- A configuration whose single rule is `ruleRL`; no global limit. -/
def cfgRuleRL (name : Str) (m w : Nat) : PolicyConfig :=
  { version := 1, mode := none, defaultAction := some .allow,
    globalRateLimit := none, rules := [ruleRL name m w] }

/-- The verdict of `ruleRL` when its bucket still has room. -/
def ruleAllowVerdict (name : Str) (m w : Nat) : PolicyVerdict :=
  { action := .allow, rule := some name, message := ruleVerdictMsg (ruleRL name m w) }

/-- The verdict of `ruleRL` when its bucket is exhausted. -/
def ruleDenyVerdict (name : Str) (m w : Nat) : PolicyVerdict :=
  { action := .deny, rule := some name, message := ruleRateMsg (ruleRL name m w) ⟨m, w⟩ }

/-- A configuration in which an allow rule with a one-call rate limit is
followed by a deny rule matching the same tool. -/
def cfgBothMatch : PolicyConfig :=
  { version := 1, mode := none, defaultAction := some .allow, globalRateLimit := none,
    rules := [{ name := str "r0", tool := str "t", matchArgs := none, action := .allow,
                message := none, rateLimit := some ⟨1, 60⟩ },
              { name := str "r1", tool := str "t", matchArgs := none, action := .deny,
                message := none, rateLimit := none }] }

/-- A call to the tool matched by both rules of `cfgBothMatch`. -/
def tcT : ToolCallParams := { name := str "t", arguments := [] }

/-- A path segment that survives resolution as an ordinary name: nonempty and
neither `.` nor `..`. -/
def PlainSeg (s : Str) : Prop := s ≠ [] ∧ s ≠ dotSeg ∧ s ≠ dotDotSeg

/-- A plain segment containing no separator. -/
def GoodSeg (s : Str) : Prop := PlainSeg s ∧ '/' ∉ s

/-- A configuration with one deny rule keyed on the `path` argument, used to
exercise normalization. -/
def cfgPathRule : PolicyConfig :=
  { version := 1, mode := none, defaultAction := some .allow, globalRateLimit := none,
    rules := [{ name := str "block-x", tool := str "read_file",
                matchArgs := some [(str "path", str "x")], action := .deny,
                message := none, rateLimit := none }] }

/-- A persisted audit log line (audit-logger.ts).  `base` is the canonical
JSON of the entry's base fields — the exact string the HMAC is computed
over (`JSON.stringify(entry)`); `seq` and `sig` are the `_seq` and `_sig`
fields added to the persisted object when signing is enabled.
`verifyChain` recovers `base` by destructuring `_seq`/`_sig` off the parsed
line and re-stringifying, which round-trips the serialized form. -/
structure LogLine where
  base : Str
  seq : Option Nat
  sig : Option Str
deriving DecidableEq, Repr

/-- The signing loop of `AuditLogger.log`: each entry's signature is the
keyed HMAC-SHA-256 — modelled by the abstract function `hmac`, standing for
`crypto.createHmac("sha256", signingKey)` already applied to the key — of
the entry's canonical JSON, a `|` separator and the previous signature.
`prev` is the logger's `prevHash`, `seq` its `seqCounter`. -/
def signEntries (hmac : Str → Str) : (prev : Str) → (seq : Nat) → List Str → List LogLine
  | _, _, [] => []
  | prev, seq, e :: rest =>
    let s := hmac (e ++ '|' :: prev)
    ⟨e, some (seq + 1), some s⟩ :: signEntries hmac s (seq + 1) rest

/-- The persisted lines produced by logging `entries` with signing enabled
on a fresh logger (`prevHash = "genesis"`, `seqCounter = 0`). -/
def signLog (hmac : Str → Str) (entries : List Str) : List LogLine :=
  signEntries hmac (str "genesis") 0 entries

/-- The final `prevHash` after signing `entries` starting from `prev`. -/
def chainEnd (hmac : Str → Str) : Str → List Str → Str
  | prev, [] => prev
  | prev, e :: rest => chainEnd hmac (hmac (e ++ '|' :: prev)) rest

/-- The verification walk of `AuditLogger.verifyChain`: recompute each
signed line's HMAC from its base and the previous *stored* signature;
record the index of the first mismatch; skip unsigned lines.  Returns the
`firstBroken` value. -/
def verifyGo (hmac : Str → Str) :
    (prev : Str) → (i : Nat) → (fb : Option Nat) → List LogLine → Option Nat
  | _, _, fb, [] => fb
  | prev, i, fb, l :: rest =>
    match l.sig with
    | none => verifyGo hmac prev (i + 1) fb rest
    | some s =>
      let expected := hmac (l.base ++ '|' :: prev)
      let fb2 := if s ≠ expected ∧ fb = none then some i else fb
      verifyGo hmac s (i + 1) fb2 rest

/-- Result of `AuditLogger.verifyChain`. -/
structure VerifyChainResult where
  valid : Bool
  entries : Nat
  firstBroken : Option Nat
deriving DecidableEq, Repr

/-- `AuditLogger.verifyChain`: walk the persisted lines and report validity,
the number of lines, and the first broken index. -/
def verifyChain (hmac : Str → Str) (lines : List LogLine) : VerifyChainResult :=
  let fb := verifyGo hmac (str "genesis") 0 none lines
  ⟨fb = none, lines.length, fb⟩

/-- The indices at which the signature comparison of the verification walk
fails (the walk compares `_sig` with the recomputation at every signed
line, not only the first). -/
def verifyMismatches (hmac : Str → Str) : (prev : Str) → (i : Nat) → List LogLine → List Nat
  | _, _, [] => []
  | prev, i, l :: rest =>
    match l.sig with
    | none => verifyMismatches hmac prev (i + 1) rest
    | some s =>
      let expected := hmac (l.base ++ '|' :: prev)
      if s ≠ expected then i :: verifyMismatches hmac s (i + 1) rest
      else verifyMismatches hmac s (i + 1) rest

/-- Replace the base fields of the persisted line at index `k`, keeping its
stored signature and sequence number intact (tampering with an entry on
disk). -/
def tamperBaseAt : List LogLine → Nat → Str → List LogLine
  | [], _, _ => []
  | l :: rest, 0, b => { l with base := b } :: rest
  | l :: rest, n + 1, b => l :: tamperBaseAt rest n b

/-! ## The response scanner (`ResponseScanner` in response-scanner.ts) -/

/-- A response pattern (`ResponsePattern`): a named regex with an action.
The presentation-only `message` field does not influence any control flow
and carries no information beyond the source table, so it is omitted. -/
structure ResponsePattern where
  name : Str
  pattern : Str
  flags : Option Str
  action : ResponseAction
  category : Option Str
deriving DecidableEq, Repr

/-- The host regular-expression engine (`new RegExp`), abstracted: whether a
pattern/flags pair compiles, the list of matches `text.match(regex)` returns
for a global regex, and the result of `text.replace(regex, rep)`. -/
structure JsRegexOracle where
  compiles : Str → Str → Bool
  findAll : Str → Str → Str → List Str
  replaceAll : Str → Str → Str → Str → Str

/-- Scanner of the first ReDoS guard `/\([^)]*[+*][^)]*\)[+*]/`: once a `(`
is fixed, `[^)]*` can only reach the first following `)`, so a match from
that `(` exists iff the run up to the first `)` contains a `+` or `*` and
the character after the `)` is `+` or `*`. `seen` carries whether a
quantifier character occurred inside the parentheses so far. -/
def d1Inside : Str → Bool → Bool
  | [], _ => false
  | ')' :: rest, seen =>
    seen && (match rest with
      | c :: _ => c = '+' || c = '*'
      | [] => false)
  | c :: rest, seen => d1Inside rest (seen || c = '+' || c = '*')

/-- Whether `/\([^)]*[+*][^)]*\)[+*]/` matches somewhere in the string. -/
def dangerous1 : Str → Bool
  | [] => false
  | '(' :: rest => d1Inside rest false || dangerous1 rest
  | _ :: rest => dangerous1 rest

/-- Scanner of the second ReDoS guard `/\([^)]*\|[^)]*\)[+*]{/`: a `(`,
a run without `)` containing a `|`, the first `)`, a quantifier character
and a literal brace. -/
def d2Inside : Str → Bool → Bool
  | [], _ => false
  | ')' :: rest, seen =>
    seen && (match rest with
      | c :: d :: _ => (c = '+' || c = '*') && d = Char.ofNat 123
      | _ => false)
  | c :: rest, seen => d2Inside rest (seen || c = '|')

/-- Whether `/\([^)]*\|[^)]*\)[+*]{/` matches somewhere in the string. -/
def dangerous2 : Str → Bool
  | [] => false
  | '(' :: rest => d2Inside rest false || dangerous2 rest
  | _ :: rest => dangerous2 rest

/-- Whether `/(.+)\1[+*]/` matches at the start of the string: some
non-empty prefix (of line-terminator-free characters, as `.` excludes line
terminators) is immediately repeated and followed by `+` or `*`.
Backtracking of the greedy `.+` tries every length, so existence over all
lengths is the test semantics. -/
def d3At (l : Str) : Bool :=
  (List.range l.length).any (fun n =>
    let s := l.take (n + 1)
    decide (s.length = n + 1) && s.all (fun c => !isLineTerm c) &&
      decide ((l.drop (n + 1)).take (n + 1) = s) &&
      (match l.drop (2 * (n + 1)) with
        | c :: _ => c = '+' || c = '*'
        | [] => false))

/-- Whether `/(.+)\1[+*]/` matches somewhere in the string. -/
def dangerous3 : Str → Bool
  | [] => false
  | c :: rest => d3At (c :: rest) || dangerous3 rest

/-- `isRegexSafe`: length bound, the three ReDoS guards, and a compile
check (`new RegExp(pattern)` with no flags). -/
def isRegexSafe (o : JsRegexOracle) (pattern : Str) : Bool :=
  if pattern.length > 1000 then false
  else if dangerous1 pattern || dangerous2 pattern || dangerous3 pattern then false
  else o.compiles pattern []

/-- The built-in secret patterns table (`SECRET_PATTERNS`). -/
def SECRET_PATTERNS : List ResponsePattern :=
  [⟨str "aws-access-key",
      str "(?:^|[^A-Za-z0-9])AKIA[0-9A-Z]\x7b16\x7d(?:[^A-Za-z0-9]|$)",
      none, .redact, some (str "secrets")⟩,
   ⟨str "aws-secret-key",
      str "(?:aws_secret_access_key|aws_secret_key|secret_access_key)\\s*[=:]\\s*[A-Za-z0-9/+=]\x7b40\x7d",
      some (str "gi"), .redact, some (str "secrets")⟩,
   ⟨str "github-token",
      str "(?:ghp|gho|ghu|ghs|ghr)_[A-Za-z0-9_]\x7b36,255\x7d",
      none, .redact, some (str "secrets")⟩,
   ⟨str "openai-api-key",
      str "sk-[A-Za-z0-9]\x7b20\x7dT3BlbkFJ[A-Za-z0-9]\x7b20\x7d",
      none, .redact, some (str "secrets")⟩,
   ⟨str "generic-api-key",
      str "(?:api[_-]?key|apikey|api[_-]?secret)\\s*[=:]+\\s*[\"\x27]?[A-Za-z0-9_\\-]\x7b20,\x7d",
      some (str "gi"), .redact, some (str "secrets")⟩,
   ⟨str "bearer-token",
      str "Bearer\\s+[A-Za-z0-9\\-._~+/]+=*",
      some (str "gi"), .redact, some (str "secrets")⟩,
   ⟨str "jwt-token",
      str "eyJ[A-Za-z0-9_-]\x7b10,\x7d\\.eyJ[A-Za-z0-9_-]\x7b10,\x7d\\.[A-Za-z0-9_\\-]\x7b10,\x7d",
      none, .redact, some (str "secrets")⟩,
   ⟨str "private-key",
      str "-----BEGIN (?:RSA |EC |DSA |OPENSSH )?PRIVATE KEY-----",
      none, .block, some (str "secrets")⟩,
   ⟨str "certificate",
      str "-----BEGIN CERTIFICATE-----",
      none, .redact, some (str "secrets")⟩,
   ⟨str "database-url",
      str "(?:postgres|mysql|mongodb|redis|amqp)://[^\\s\"\x27]+:[^\\s\"\x27]+@[^\\s\"\x27]+",
      some (str "gi"), .redact, some (str "secrets")⟩,
   ⟨str "password-assignment",
      str "(?:password|passwd|pwd)\\s*[=:]\\s*[\"\x27]?[^\\s\"\x27]\x7b8,\x7d",
      some (str "gi"), .redact, some (str "secrets")⟩]

/-- `getExfiltrationPatterns`: the two exfiltration markers; the base64
blob's action is the configured one, the hex dump's is pass. -/
def getExfiltrationPatterns (base64Action : ResponseAction) : List ResponsePattern :=
  [⟨str "large-base64-blob",
      str "(?:[A-Za-z0-9+/]\x7b100,\x7d=\x7b0,2\x7d)",
      none, base64Action, some (str "exfiltration")⟩,
   ⟨str "hex-dump",
      str "(?:[0-9a-f]\x7b2\x7d[:\\s])\x7b32,\x7d",
      some (str "gi"), .pass, some (str "exfiltration")⟩]

/-- The built-in PII patterns table (`PII_PATTERNS`). -/
def PII_PATTERNS : List ResponsePattern :=
  [⟨str "email-address",
      str "[a-zA-Z0-9._%+\\-]+@[a-zA-Z0-9.\\-]+\\.[a-zA-Z]\x7b2,\x7d",
      none, .redact, some (str "pii")⟩,
   ⟨str "phone-number",
      str "(?:\\+?1[\\s.-]?)?\\(?[0-9]\x7b3\x7d\\)?[\\s.-]?[0-9]\x7b3\x7d[\\s.-]?[0-9]\x7b4\x7d",
      none, .redact, some (str "pii")⟩,
   ⟨str "ssn",
      str "\\b\\d\x7b3\x7d-\\d\x7b2\x7d-\\d\x7b4\x7d\\b",
      none, .block, some (str "pii")⟩,
   ⟨str "credit-card",
      str "\\b(?:4[0-9]\x7b12\x7d(?:[0-9]\x7b3\x7d)?|5[1-5][0-9]\x7b14\x7d|3[47][0-9]\x7b13\x7d|6(?:011|5[0-9]\x7b2\x7d)[0-9]\x7b12\x7d)\\b",
      none, .block, some (str "pii")⟩,
   ⟨str "ip-address",
      str "\\b(?:(?:25[0-5]|2[0-4][0-9]|[01]?[0-9][0-9]?)\\.)\x7b3\x7d(?:25[0-5]|2[0-4][0-9]|[01]?[0-9][0-9]?)\\b",
      none, .pass, some (str "pii")⟩]

/-- The optional scanner configuration (`ResponseScannerConfig`). -/
structure ResponseScannerConfig where
  enabled : Option Bool := none
  maxResponseSize : Option Nat := none
  oversizeAction : Option ResponseAction := none
  detectSecrets : Option Bool := none
  detectPII : Option Bool := none
  base64Action : Option ResponseAction := none
  maxPatterns : Option Nat := none
  patterns : Option (List ResponsePattern) := none
deriving DecidableEq, Repr

/-- The scanner's resolved configuration: the constructor applies the
defaults with `??`. -/
structure ScannerState where
  enabled : Bool
  maxResponseSize : Nat
  oversizeAction : ResponseAction
  detectSecrets : Bool
  detectPII : Bool
  base64Action : ResponseAction
  maxPatterns : Nat
  patterns : List ResponsePattern
deriving DecidableEq, Repr

/-- The constructor's config resolution (defaults: enabled, size limit 0,
oversize redact, secrets on, PII off, base64 pass, at most 100 custom
patterns). -/
def resolveConfig (c : ResponseScannerConfig) : ScannerState :=
  ⟨c.enabled.getD true, c.maxResponseSize.getD 0, c.oversizeAction.getD .redact,
   c.detectSecrets.getD true, c.detectPII.getD false, c.base64Action.getD .pass,
   c.maxPatterns.getD 100, c.patterns.getD []⟩

/-- `safeCompile`: user (untrusted) patterns must pass `isRegexSafe`; a
pattern is kept iff `new RegExp(pattern, flags ?? "gi")` compiles. -/
def safeCompile (o : JsRegexOracle) (trusted : Bool) (p : ResponsePattern) :
    Option ResponsePattern :=
  if !trusted && !isRegexSafe o p.pattern then none
  else if o.compiles p.pattern (p.flags.getD (str "gi")) then some p
  else none

/-- `compilePatterns`: secrets and exfiltration markers both gated on
`detectSecrets`, PII on `detectPII`, then at most `maxPatterns` user
patterns, each ReDoS-validated. -/
def compilePatterns (o : JsRegexOracle) (s : ScannerState) : List ResponsePattern :=
  (if s.detectSecrets then SECRET_PATTERNS.filterMap (safeCompile o true) else []) ++
  (if s.detectSecrets then
    (getExfiltrationPatterns s.base64Action).filterMap (safeCompile o true)
  else []) ++
  (if s.detectPII then PII_PATTERNS.filterMap (safeCompile o true) else []) ++
  (s.patterns.take s.maxPatterns).filterMap (safeCompile o false)

/-- A scan finding (`ScanFinding`); the presentation-only `message` and
`preview` fields are omitted. -/
structure ScanFindingM where
  pattern : Str
  category : Str
  action : ResponseAction
  matchCount : Nat
deriving DecidableEq, Repr

/-- A scan result (`ScanResult`). -/
structure ScanResultM where
  clean : Bool
  action : ResponseAction
  findings : List ScanFindingM
  redactedText : Option Str
  originalSize : Nat
deriving DecidableEq, Repr

/-- The oversize finding of `scan` step 1 (size limit configured and
exceeded). -/
def sizeFindings (s : ScannerState) (originalSize : Nat) : List ScanFindingM :=
  if s.maxResponseSize > 0 ∧ originalSize > s.maxResponseSize then
    [⟨str "__oversize__", str "size", s.oversizeAction, 1⟩]
  else []

/-- The per-pattern findings of `scan` step 2: a finding for every compiled
pattern with a non-empty match list. -/
def patternFindings (o : JsRegexOracle) (compiled : List ResponsePattern)
    (text : Str) : List ScanFindingM :=
  compiled.filterMap (fun p =>
    let ms := o.findAll p.pattern (p.flags.getD (str "gi")) text
    if ms.length > 0 then
      some ⟨p.name, p.category.getD (str "custom"), p.action, ms.length⟩
    else none)

/-- The loop of `resolveAction`: block short-circuits, redact is recorded
as the running highest. -/
def resolveActionGo : List ScanFindingM → ResponseAction → ResponseAction
  | [], highest => highest
  | f :: rest, highest =>
    if f.action = .block then .block
    else if f.action = .redact then resolveActionGo rest .redact
    else resolveActionGo rest highest

/-- `resolveAction`: highest severity across findings (block > redact >
pass). -/
def resolveAction (findings : List ScanFindingM) : ResponseAction :=
  resolveActionGo findings .pass

/-- `redactText`: truncate on an oversize finding, then replace every
compiled pattern that has a redact-action finding with the literal
`[REDACTED]` marker. -/
def redactText (o : JsRegexOracle) (s : ScannerState)
    (compiled : List ResponsePattern) (text : Str)
    (findings : List ScanFindingM) : Str :=
  let r0 :=
    if s.maxResponseSize > 0 ∧
        findings.any (fun f => decide (f.pattern = str "__oversize__")) then
      text.take s.maxResponseSize ++
        str "\n\n[Agent Wall: Response truncated — exceeded size limit]"
    else text
  compiled.foldl (fun red p =>
    match findings.find? (fun f => decide (f.pattern = p.name)) with
    | some f =>
      if f.action = .redact then
        o.replaceAll p.pattern (p.flags.getD (str "gi")) red (str "[REDACTED]")
      else red
    | none => red) r0

/-- `ResponseScanner.scan`: disabled pass-through, oversize check, pattern
matching, severity resolution, and redaction when the overall action is
redact. -/
def scan (o : JsRegexOracle) (cfg : ResponseScannerConfig) (text : Str) :
    ScanResultM :=
  let s := resolveConfig cfg
  if !s.enabled then ⟨true, .pass, [], none, utf8Len text⟩
  else
    let originalSize := utf8Len text
    let compiled := compilePatterns o s
    let findings := sizeFindings s originalSize ++ patternFindings o compiled text
    if findings.length = 0 then ⟨true, .pass, [], none, originalSize⟩
    else
      let overall := resolveAction findings
      ⟨false, overall, findings,
        if overall = .redact then some (redactText o s compiled text findings)
        else none, originalSize⟩

/-- A regex oracle on which every pattern compiles and nothing matches;
sufficient for statements about the compiled pattern set alone. -/
def allCompileOracle : JsRegexOracle :=
  ⟨fun _ _ => true, fun _ _ _ => [], fun _ _ t _ => t⟩

/-- Literal case-insensitive global matching: the list of non-overlapping
matches of the literal `pat` (compared case-insensitively, the semantics of
a metacharacter-free JS regex with flags "gi") in the text, scanning left
to right. `fuel` bounds the recursion by the text length. -/
def litFindGo (pat : Str) : Nat → Str → List Str
  | 0, _ => []
  | _ + 1, [] => []
  | fuel + 1, c :: rest =>
    if pat ≠ [] ∧ lowerStr ((c :: rest).take pat.length) = lowerStr pat then
      (c :: rest).take pat.length :: litFindGo pat fuel ((c :: rest).drop pat.length)
    else litFindGo pat fuel rest

/-- Literal case-insensitive global replacement, the semantics of
`text.replace(regex, rep)` for a metacharacter-free pattern with flags
"gi". -/
def litReplaceGo (pat rep : Str) : Nat → Str → Str
  | 0, t => t
  | _ + 1, [] => []
  | fuel + 1, c :: rest =>
    if pat ≠ [] ∧ lowerStr ((c :: rest).take pat.length) = lowerStr pat then
      rep ++ litReplaceGo pat rep fuel ((c :: rest).drop pat.length)
    else c :: litReplaceGo pat rep fuel rest

/-- The regex oracle interpreting every pattern as a case-insensitive
literal — the behavior of JS regexes built from metacharacter-free
patterns with the scanner's default flags "gi". -/
def litOracle : JsRegexOracle :=
  ⟨fun _ _ => true,
   fun pat _ text => litFindGo pat text.length text,
   fun pat _ text rep => litReplaceGo pat rep text.length text⟩

/-- The C4 counterexample configuration: secret detection turned off,
everything else default. -/
def c4cfg : ResponseScannerConfig := { detectSecrets := some false }

/-- The C8 counterexample configuration: built-ins off, one custom
redact-action pattern whose literal text reoccurs inside the `[REDACTED]`
replacement marker. -/
def c8cfg : ResponseScannerConfig :=
  { detectSecrets := some false,
    patterns := some [⟨str "REDACT", str "REDACT", none, .redact, none⟩] }

/-- The C8 witness configuration: built-ins off, one custom redact-action
pattern that does not match the replacement marker. -/
def c8wcfg : ResponseScannerConfig :=
  { detectSecrets := some false,
    patterns := some [⟨str "SECRET", str "SECRET", none, .redact, none⟩] }

/-! ## JSON-RPC messages and the stdio proxy (`StdioProxy` in proxy.ts,
helpers in types.ts) -/

/-- A JSON value. -/
inductive JVal where
  | jstr (s : Str)
  | jnum (n : Int)
  | jbool (b : Bool)
  | jnull
  | jarr (elems : List JVal)
  | jobj (fields : List (Str × JVal))

/-- A JSON-RPC message: each field is present or absent (`"id" in msg`). -/
structure JsonRpcMessageM where
  id : Option JVal := none
  method : Option Str := none
  params : Option (List (Str × JVal)) := none
  result : Option JVal := none
  error : Option (Int × Str) := none

/-- `isRequest`: has both an id and a method. -/
def isRequest (m : JsonRpcMessageM) : Bool :=
  m.id.isSome && m.method.isSome

/-- `isToolCall`: a request whose method is tools/call. -/
def isToolCall (m : JsonRpcMessageM) : Bool :=
  isRequest m && decide (m.method = some (str "tools/call"))

/-- Key lookup in a JSON object (property access on a `Record`). -/
def jLookup (fields : List (Str × JVal)) (k : Str) : Option JVal :=
  match fields.find? (fun kv => decide (kv.fst = k)) with
  | some kv => some kv.snd
  | none => none

/-- The tool call extracted by `getToolCallParams`. -/
structure ProxyToolCall where
  name : Str
  arguments : JVal

/-- `getToolCallParams`: null unless the method is tools/call, params are
present and `params.name` is a string; the arguments default to `{}` when
absent. -/
def getToolCallParams (msg : JsonRpcMessageM) : Option ProxyToolCall :=
  if msg.method ≠ some (str "tools/call") then none
  else match msg.params with
    | none => none
    | some params =>
      match jLookup params (str "name") with
      | some (JVal.jstr n) =>
        some ⟨n, (jLookup params (str "arguments")).getD (JVal.jobj [])⟩
      | _ => none

/-- `createDenyResponse`: JSON-RPC error `-32001` with the `Agent Wall: `
prefix. -/
def createDenyResponse (id : Option JVal) (message : Str) : JsonRpcMessageM :=
  { id := id, error := some (-32001, str "Agent Wall: " ++ message) }

/-- The proxy's statistics counters. -/
structure ProxyStats where
  forwarded : Nat := 0
  denied : Nat := 0
  prompted : Nat := 0
  total : Nat := 0
  scanned : Nat := 0
  responseBlocked : Nat := 0
  responseRedacted : Nat := 0
deriving DecidableEq, Repr

/-- The proxy's view of the kill switch module: the value `isActive()`
returns and `getStatus().reason`. -/
structure KillSwitchView where
  active : Bool
  reason : Str

/-- Result of `injectionDetector.scan`. -/
structure InjectionScanResult where
  detected : Bool
  confidence : Str
  summary : Str

/-- Result of `egressControl.check`. -/
structure EgressCheckResult where
  allowed : Bool
  summary : Str

/-- One chain match of `chainDetector.record`. -/
structure ChainMatch where
  chain : Str
  severity : Str

/-- Result of `chainDetector.record`. -/
structure ChainRecordResult where
  detected : Bool
  matchList : List ChainMatch

/-- `Array.prototype.join` with a separator string. -/
def joinSep (sep : Str) : List Str → Str
  | [] => []
  | [x] => x
  | x :: y :: rest => x ++ sep ++ joinSep sep (y :: rest)

/-- The proxy's optional security modules, each abstracted by its observable
behavior on a tool call; `responseScanner` only matters through its
presence, `onPrompt` returns the approval or the thrown error. -/
structure ProxyOptions where
  killSwitch : Option KillSwitchView
  injectionDetector : Option (ProxyToolCall → InjectionScanResult)
  egressControl : Option (ProxyToolCall → EgressCheckResult)
  policyEngine : ProxyToolCall → PolicyVerdict
  chainDetector : Option (ProxyToolCall → ChainRecordResult)
  responseScanner : Bool
  onPrompt : Option (Str → JVal → Str → Except Str Bool)

/-- Observable side effects of handling one client message. -/
inductive ProxyEffect where
  | writeToServer (msg : JsonRpcMessageM)
  | writeToClient (msg : JsonRpcMessageM)
  | emitted (event : Str) (detail : List Str)
  | logged (tool : Str) (verdict : PolicyVerdict)
  | trackPending (id : Option JVal) (tool : Str) (args : JVal)

/-- `handleDeny`: count, log, emit, and send the deny response to the
client; the request is never forwarded. -/
def handleDeny (request : JsonRpcMessageM) (tool : Str) (args : JVal)
    (verdict : PolicyVerdict) (st : ProxyStats) : ProxyStats × List ProxyEffect :=
  ({ st with denied := st.denied + 1 },
   [ProxyEffect.logged tool verdict,
    ProxyEffect.emitted (str "denied") [tool, verdict.message],
    ProxyEffect.writeToClient (createDenyResponse request.id verdict.message)])

/-- `handleAllow`: count, track the pending call when a response scanner is
configured, log, emit, and forward to the server. -/
def handleAllow (request : JsonRpcMessageM) (tool : Str) (args : JVal)
    (verdict : PolicyVerdict) (responseScanner : Bool) (st : ProxyStats) :
    ProxyStats × List ProxyEffect :=
  ({ st with forwarded := st.forwarded + 1 },
   (if responseScanner then [ProxyEffect.trackPending request.id tool args]
    else []) ++
   [ProxyEffect.logged tool verdict,
    ProxyEffect.emitted (str "allowed") [tool],
    ProxyEffect.writeToServer request])

/-- `handlePrompt`: emit, then deny (fail-secure) without a handler, and
otherwise allow or deny according to the handler's answer; a thrown error
denies with the error text. -/
def handlePrompt (request : JsonRpcMessageM) (tool : Str) (args : JVal)
    (verdict : PolicyVerdict)
    (onPrompt : Option (Str → JVal → Str → Except Str Bool))
    (responseScanner : Bool) (st : ProxyStats) : ProxyStats × List ProxyEffect :=
  let pre := [ProxyEffect.emitted (str "prompted") [tool, verdict.message]]
  match onPrompt with
  | none =>
    let r := handleDeny request tool args
      { verdict with
          action := .deny,
          message := verdict.message ++ str " (auto-denied: no prompt handler)" } st
    (r.1, pre ++ r.2)
  | some f =>
    match f tool args verdict.message with
    | .ok true =>
      let r := handleAllow request tool args
        { verdict with
            action := .allow,
            message := verdict.message ++ str " (manually approved)" }
        responseScanner st
      (r.1, pre ++ r.2)
    | .ok false =>
      let r := handleDeny request tool args
        { verdict with
            action := .deny,
            message := verdict.message ++ str " (manually denied)" } st
      (r.1, pre ++ r.2)
    | .error e =>
      let r := handleDeny request tool args
        { verdict with
            action := .deny,
            message := verdict.message ++ str " (prompt error: " ++ e ++ str ")" } st
      (r.1, pre ++ r.2)

/-- The verdict switch at the end of `handleClientMessage`. -/
def dispatchVerdict (opts : ProxyOptions) (request : JsonRpcMessageM)
    (tc : ProxyToolCall) (args : JVal) (verdict : PolicyVerdict)
    (st : ProxyStats) : ProxyStats × List ProxyEffect :=
  match verdict.action with
  | .allow => handleAllow request tc.name args verdict opts.responseScanner st
  | .deny => handleDeny request tc.name args verdict st
  | .prompt => handlePrompt request tc.name args verdict opts.onPrompt
      opts.responseScanner st

/-- Step 5 of `handleClientMessage`: chain detection — record the call for
non-deny verdicts; critical chains are denied, non-critical ones logged as
warnings before the verdict is dispatched. -/
def chainStage (opts : ProxyOptions) (request : JsonRpcMessageM)
    (tc : ProxyToolCall) (args : JVal) (verdict : PolicyVerdict)
    (st : ProxyStats) : ProxyStats × List ProxyEffect :=
  match opts.chainDetector with
  | some cd =>
    if verdict.action ≠ .deny then
      let chain := cd tc
      if chain.detected then
        let critical :=
          chain.matchList.any (fun m => decide (m.severity = str "critical"))
        let summary := joinSep (str ", ")
          (chain.matchList.map (fun m => m.chain ++ str "(" ++ m.severity ++ str ")"))
        let pre := [ProxyEffect.emitted (str "chainDetected") [tc.name, summary]]
        if critical then
          let r := handleDeny request tc.name args
            ⟨.deny, some (str "__chain_detector__"),
              str "Critical tool chain blocked: " ++ summary⟩ st
          (r.1, pre ++ r.2)
        else
          let warn := [ProxyEffect.logged tc.name
            ⟨.allow, some (str "__chain_detector__"),
              str "Suspicious tool chain (warning): " ++ summary⟩]
          let r := dispatchVerdict opts request tc args verdict st
          (r.1, pre ++ warn ++ r.2)
      else dispatchVerdict opts request tc args verdict st
    else dispatchVerdict opts request tc args verdict st
  | none => dispatchVerdict opts request tc args verdict st

/-- Step 4 of `handleClientMessage`: policy evaluation. -/
def policyStage (opts : ProxyOptions) (request : JsonRpcMessageM)
    (tc : ProxyToolCall) (args : JVal) (st : ProxyStats) :
    ProxyStats × List ProxyEffect :=
  chainStage opts request tc args (opts.policyEngine tc) st

/-- Step 3 of `handleClientMessage`: egress control. -/
def egressStage (opts : ProxyOptions) (request : JsonRpcMessageM)
    (tc : ProxyToolCall) (args : JVal) (st : ProxyStats) :
    ProxyStats × List ProxyEffect :=
  match opts.egressControl with
  | some ec =>
    let egress := ec tc
    if !egress.allowed then
      let r := handleDeny request tc.name args
        ⟨.deny, some (str "__egress_control__"),
          str "Egress blocked: " ++ egress.summary⟩ st
      (r.1, ProxyEffect.emitted (str "egressBlocked") [tc.name, egress.summary] :: r.2)
    else policyStage opts request tc args st
  | none => policyStage opts request tc args st

/-- Step 2 of `handleClientMessage`: injection detection (low-confidence
detections pass). -/
def injectionStage (opts : ProxyOptions) (request : JsonRpcMessageM)
    (tc : ProxyToolCall) (args : JVal) (st : ProxyStats) :
    ProxyStats × List ProxyEffect :=
  match opts.injectionDetector with
  | some det =>
    let injection := det tc
    if injection.detected && decide (injection.confidence ≠ str "low") then
      let r := handleDeny request tc.name args
        ⟨.deny, some (str "__injection_detector__"),
          str "Prompt injection blocked: " ++ injection.summary⟩ st
      (r.1,
       ProxyEffect.emitted (str "injectionDetected") [tc.name, injection.summary]
         :: r.2)
    else egressStage opts request tc args st
  | none => egressStage opts request tc args st

/-- Step 1 of `handleClientMessage`: kill switch. -/
def killStage (opts : ProxyOptions) (request : JsonRpcMessageM)
    (tc : ProxyToolCall) (args : JVal) (st : ProxyStats) :
    ProxyStats × List ProxyEffect :=
  match opts.killSwitch with
  | some ks =>
    if ks.active then
      let r := handleDeny request tc.name args
        ⟨.deny, some (str "__kill_switch__"),
          str "Kill switch active: " ++ ks.reason ++ str ". All tool calls denied."⟩
        st
      (r.1, ProxyEffect.emitted (str "killSwitchActive") [tc.name] :: r.2)
    else injectionStage opts request tc args st
  | none => injectionStage opts request tc args st

/-- `StdioProxy.handleClientMessage`: count the message, pass through
non-tool-calls and malformed tool calls unchanged, and run the security
pipeline on well-formed tool calls. -/
def handleClientMessage (opts : ProxyOptions) (st : ProxyStats)
    (msg : JsonRpcMessageM) : ProxyStats × List ProxyEffect :=
  let st1 := { st with total := st.total + 1 }
  if !isToolCall msg then (st1, [ProxyEffect.writeToServer msg])
  else
    match getToolCallParams msg with
    | none => (st1, [ProxyEffect.writeToServer msg])
    | some tc => killStage opts msg tc tc.arguments st1

/-- A concrete options record with no optional module configured. -/
def bareOptions : ProxyOptions :=
  ⟨none, none, none, fun _ => ⟨.allow, none, str "No rules matched"⟩, none,
   false, none⟩

/-! ## The kill switch (`KillSwitch` in kill-switch.ts) -/

/-- Optional kill-switch configuration (`KillSwitchConfig`); the polling
interval and signal registration have no bearing on the flag logic. -/
structure KillSwitchConfig where
  enabled : Option Bool := none
  checkFile : Option Bool := none
  killFileNames : Option (List Str) := none
  checkDirs : Option (List Str) := none
deriving Repr

/-- The kill switch's mutable state together with its resolved
configuration. -/
structure KillSwitchState where
  enabled : Bool
  checkFile : Bool
  killFileNames : List Str
  checkDirs : List Str
  manuallyActive : Bool
  fileActive : Bool
  activeReason : Str
  activatedAt : Option Str
deriving DecidableEq, Repr

/-- `path.join(dir, fileName)` for the already-normalized directory paths
the kill switch uses. -/
def pathJoin2 (dir name : Str) : Str := dir ++ '/' :: name

/-- The first existing kill file, scanning directories in order and file
names within each directory (`checkKillFiles`' double loop; filesystem
errors are ignored, which the boolean existence oracle absorbs). -/
def findKillFile (ex : Str → Bool) (dirs names : List Str) : Option Str :=
  (dirs.flatMap (fun d => names.map (fun n => pathJoin2 d n))).find? ex

/-- `checkKillFiles`: an existing kill file sets the file flag (keeping an
earlier activation record); no kill file clears the file flag and, only
when no programmatic activation holds, the reason and timestamp. -/
def checkKillFiles (ex : Str → Bool) (now : Str) (s : KillSwitchState) :
    KillSwitchState :=
  match findKillFile ex s.checkDirs s.killFileNames with
  | some fp =>
    if !s.fileActive then
      { s with
          fileActive := true,
          activeReason := str "Kill file detected: " ++ fp,
          activatedAt := some now }
    else s
  | none =>
    if s.fileActive then
      if !s.manuallyActive then
        { s with fileActive := false, activeReason := [], activatedAt := none }
      else { s with fileActive := false }
    else s

/-- `isActive`: false when the switch is disabled, else the OR of the
programmatic and the file flag. -/
def isActiveKS (s : KillSwitchState) : Bool :=
  if !s.enabled then false else s.manuallyActive || s.fileActive

/-- `activate`: set the programmatic flag unconditionally. -/
def activate (reason now : Str) (s : KillSwitchState) : KillSwitchState :=
  { s with
      manuallyActive := true,
      activeReason := reason,
      activatedAt := some now }

/-- `deactivate`: clear the programmatic flag; the reason and timestamp
survive while the file flag holds. -/
def deactivate (s : KillSwitchState) : KillSwitchState :=
  if !s.fileActive then
    { s with manuallyActive := false, activeReason := [], activatedAt := none }
  else { s with manuallyActive := false }

/-- The constructor: resolve the configuration (defaults: enabled, file
checking on, `.agent-wall-kill` in the working and home directories) and,
when enabled and file checking is on, run the immediate kill-file check of
`startPolling`. -/
def mkKillSwitch (cfg : KillSwitchConfig) (cwd home : Str) (ex : Str → Bool)
    (now : Str) : KillSwitchState :=
  let s0 : KillSwitchState :=
    ⟨cfg.enabled.getD true, cfg.checkFile.getD true,
     cfg.killFileNames.getD [str ".agent-wall-kill"],
     cfg.checkDirs.getD [cwd, home], false, false, [], none⟩
  if s0.enabled && s0.checkFile then checkKillFiles ex now s0 else s0

/-- A malformed tools/call request: no params at all. -/
def c2msg : JsonRpcMessageM :=
  { id := some (JVal.jnum 1), method := some (str "tools/call") }

/-- A request that is not a tools/call. -/
def c10msg : JsonRpcMessageM :=
  { id := some (JVal.jnum 1), method := some (str "ping") }

/-- The C9 witness state: a default-configured switch constructed in an
environment with no kill file. -/
def c9wstate : KillSwitchState :=
  mkKillSwitch {} (str "/cwd") (str "/home") (fun _ => false) (str "t0")

/-- The C9 counterexample state: a disabled switch that was programmatically
activated. -/
def c9state : KillSwitchState :=
  activate (str "Manually activated") (str "t0")
    (mkKillSwitch { enabled := some false } (str "/cwd") (str "/home")
      (fun _ => false) (str "t0"))

/-! ## General lemmas about the embedded string helpers -/

/-- `splitBy` never returns an empty list of pieces. -/
theorem splitBy_ne_nil (sep : Char) (l : Str) : splitBy sep l ≠ [] := by
  cases l with
  | nil => simp [splitBy]
  | cons c t =>
    simp only [splitBy]
    split
    · simp
    · cases h : splitBy sep t <;> simp

/-- `dropWhile` is the identity when no element satisfies the test. -/
theorem dropWhile_eq_self_of_all {p : Char → Bool} {l : Str}
    (h : ∀ c ∈ l, p c = false) : l.dropWhile p = l := by
  cases l with
  | nil => rfl
  | cons c t => simp [List.dropWhile_cons, h c (by simp)]

/-- `jsTrim` is the identity on whitespace-free strings. -/
theorem jsTrim_eq_self {s : Str} (h : ∀ c ∈ s, c.isWhitespace = false) :
    jsTrim s = s := by
  unfold jsTrim
  rw [dropWhile_eq_self_of_all h, dropWhile_eq_self_of_all, List.reverse_reverse]
  intro c hc
  exact h c (List.mem_reverse.mp hc)

/-- Splitting a string that does not contain the separator yields the string
as the single piece. -/
theorem splitBy_single {sep : Char} {l : Str} (h : sep ∉ l) : splitBy sep l = [l] := by
  induction l with
  | nil => rfl
  | cons c t ih =>
    have hc : c ≠ sep := fun e => h (e ▸ List.mem_cons_self c t)
    have ht : sep ∉ t := fun m => h (List.mem_cons_of_mem c m)
    simp [splitBy, hc, ih ht]

/-- A glob pattern without wildcards matches exactly the equal string. -/
theorem globMatch_literal (dot : Bool) {pat : Str}
    (h : ∀ c ∈ pat, c ≠ '*' ∧ c ≠ '?') :
    ∀ (s : Str) (aS : Bool), globMatch dot pat s aS = decide (s = pat) := by
  induction pat with
  | nil =>
    intro s aS
    cases s <;> simp [globMatch]
  | cons c pt ih =>
    intro s aS
    have hc := h c (List.mem_cons_self c pt)
    have hpt : ∀ x ∈ pt, x ≠ '*' ∧ x ≠ '?' := fun x hx => h x (List.mem_cons_of_mem c hx)
    cases s with
    | nil => simp [globMatch, hc.1, hc.2]
    | cons d dt =>
      simp only [globMatch, hc.1, hc.2, if_false, ih hpt]
      by_cases hcd : c = d
      · subst hcd
        by_cases hdt : dt = pt <;> simp [hdt]
      · have hdc : d ≠ c := fun e => hcd e.symm
        simp [hcd, hdc]

/-- A `|`-free, wildcard-free, whitespace-free tool pattern matches exactly
the equal tool name. -/
theorem matchToolName_literal (p t : Str)
    (hp : ∀ c ∈ p, c ≠ '*' ∧ c ≠ '?' ∧ c ≠ '|' ∧ c.isWhitespace = false) :
    matchToolName p t = decide (t = p) := by
  unfold matchToolName
  rw [splitBy_single (fun m => ((hp _ m).2.2.1) rfl)]
  simp only [List.map_cons, List.map_nil, List.any_cons, List.any_nil, Bool.or_false]
  rw [jsTrim_eq_self (fun c hc => (hp c hc).2.2.2)]
  exact globMatch_literal false (fun c hc => ⟨(hp c hc).1, (hp c hc).2.1⟩) t true

/-! ## C1 — tool-name matching and letter case -/

/-- C1 (counterexample): the claim that tool-name matching is
case-insensitive is false on the code.  `matchToolName` calls minimatch with
its default options, which compare case-sensitively; the tool name is
NFC-normalized but its case is preserved.  Concretely, the pattern
`shell_exec` differs from the (already NFC-normal) tool name `SHELL_EXEC`
only in letter case, yet neither the tool-name matcher nor whole-rule
matching accepts it. -/
theorem c1_case_insensitive_counterexample :
    lowerStr (str "SHELL_EXEC") = lowerStr (str "shell_exec") ∧
    str "SHELL_EXEC" ≠ str "shell_exec" ∧
    matchToolName (str "shell_exec") (str "SHELL_EXEC") = false ∧
    matchesRule id
      { name := str "deny-shell", tool := str "shell_exec", matchArgs := none,
        action := .deny, message := none, rateLimit := none }
      { name := str "SHELL_EXEC", arguments := [] } = false := by
  decide

/-- C1 (amended): tool-name matching is case-sensitive.  A pattern
alternative free of glob metacharacters, alternation bars and whitespace
matches precisely the identical (NFC-normalized) tool name; in particular a
pattern that differs from the tool name only in letter case does not
match. -/
theorem c1_tool_name_matching_case_sensitive (p t : Str)
    (hp : ∀ c ∈ p, c ≠ '*' ∧ c ≠ '?' ∧ c ≠ '|' ∧ c.isWhitespace = false) :
    matchToolName p t = true ↔ t = p := by
  rw [matchToolName_literal p t hp]
  simp

/-- C1 witness: the amended theorem applied at the pattern and tool name
`shell_exec`. -/
theorem c1_tool_name_matching_case_sensitive_witness :
    (∀ c ∈ str "shell_exec", c ≠ '*' ∧ c ≠ '?' ∧ c ≠ '|' ∧ c.isWhitespace = false) ∧
    (matchToolName (str "shell_exec") (str "shell_exec") = true ↔
      str "shell_exec" = str "shell_exec") :=
  ⟨by decide, c1_tool_name_matching_case_sensitive (str "shell_exec") (str "shell_exec") (by decide)⟩

/-! ## C5 — the sliding-window rate limiter -/

/-- Reading back the bucket just written. -/
theorem bucketsSet_self (b : Buckets) (k : Str) (v : List Nat) :
    bucketsSet b k v k = v := by
  simp [bucketsSet]

/-- Counting occurrences in a replicated list. -/
theorem countP_replicate {α : Type} (p : α → Bool) (n : Nat) (a : α) :
    (List.replicate n a).countP p = if p a then n else 0 := by
  induction n with
  | zero => simp
  | succ k ih =>
    rw [List.replicate_succ, List.countP_cons, ih]
    by_cases h : p a <;> simp [h]

/-- Behavior of iterated `evaluate` under `cfgGlobalRL`: with `j` timestamps
already in the global bucket and every pair of involved instants closer than
the window, the first `m - j` calls get the default (allow) verdict and all
later calls are denied by the global rate limit. -/
theorem runEval_global_aux (m w : Nat) (calls : List (ToolCallParams × Nat)) :
    ∀ (b : Buckets) (pre : List Nat),
      b (str "__global__") = pre →
      (∀ x ∈ pre ++ calls.map Prod.snd, ∀ y ∈ pre ++ calls.map Prod.snd,
        y - x < w * 1000) →
      (runEval id (cfgGlobalRL m w) b calls).1 =
        List.replicate (min (m - pre.length) calls.length)
            (defaultVerdict (cfgGlobalRL m w)) ++
          List.replicate (calls.length - (m - pre.length)) (globalDenyVerdict m w) := by
  induction calls with
  | nil => intro b pre _ _; simp [runEval]
  | cons hd rest ih =>
    intro b pre hb hwin
    obtain ⟨tc, t⟩ := hd
    have hsub : ∀ x ∈ pre ++ rest.map Prod.snd,
        x ∈ pre ++ ((tc, t) :: rest).map Prod.snd := by
      intro x hx
      rcases List.mem_append.mp hx with h | h
      · exact List.mem_append_left _ h
      · exact List.mem_append_right _ (by simp [h])
    have hsub1 : ∀ x ∈ (pre ++ [t]) ++ rest.map Prod.snd,
        x ∈ pre ++ ((tc, t) :: rest).map Prod.snd := by
      intro x hx
      rcases List.mem_append.mp hx with h | h
      · rcases List.mem_append.mp h with h1 | h1
        · exact List.mem_append_left _ h1
        · exact List.mem_append_right _ (by simp at h1; simp [h1])
      · exact List.mem_append_right _ (by simp [h])
    have ht : t ∈ pre ++ ((tc, t) :: rest).map Prod.snd :=
      List.mem_append_right _ (by simp)
    have hkeep : pre.filter (fun x => decide (t - x < w * 1000)) = pre := by
      apply List.filter_eq_self.mpr
      intro x hx
      simp only [decide_eq_true_iff]
      exact hwin x (List.mem_append_left _ hx) t ht
    have hcfg : (cfgGlobalRL m w).globalRateLimit = some ⟨m, w⟩ := rfl
    have hrules : (cfgGlobalRL m w).rules = [] := rfl
    simp only [runEval, evaluate, hcfg, hrules, rateCheck, hb, hkeep]
    by_cases hml : m ≤ pre.length
    · have ha : m - pre.length = 0 := Nat.sub_eq_zero_of_le hml
      simp only [if_pos hml, Bool.not_false, if_true]
      rw [ih _ _ (bucketsSet_self ..) (fun x hx y hy => hwin x (hsub x hx) y (hsub y hy))]
      simp [ha, globalDenyVerdict, List.replicate_succ]
    · have hlt : pre.length < m := Nat.lt_of_not_le hml
      obtain ⟨a, ha⟩ : ∃ a, m - pre.length = a + 1 :=
        ⟨m - pre.length - 1, by omega⟩
      simp only [if_neg hml, Bool.not_true, Bool.false_eq_true, if_false]
      have hrw := ih (bucketsSet b (str "__global__") (pre ++ [t])) (pre ++ [t])
        (bucketsSet_self ..) (fun x hx y hy => hwin x (hsub1 x hx) y (hsub1 y hy))
      simp only [evalRules] at hrw ⊢
      rw [hrw]
      have hb1 : m - (pre ++ [t]).length = a := by simp; omega
      rw [hb1, ha]
      simp only [List.length_cons, Nat.succ_min_succ, Nat.succ_sub_succ,
        List.replicate_succ, List.cons_append]

/-- The single rule of `cfgRuleRL` matches the fixed call `tcRead`. -/
theorem matchesRule_ruleRL (name : Str) (m w : Nat) :
    matchesRule id (ruleRL name m w) tcRead = true := by
  simp only [matchesRule, ruleRL, tcRead, id]
  decide

/-- Behavior of iterated `evaluate` under `cfgRuleRL`: the first `m - j`
matching calls are allowed by the rule, later ones denied under the rule's
own name. -/
theorem runEval_rule_aux (name : Str) (m w : Nat)
    (calls : List (ToolCallParams × Nat)) (hcalls : ∀ c ∈ calls, c.1 = tcRead) :
    ∀ (b : Buckets) (pre : List Nat),
      b (str "rule:" ++ name) = pre →
      (∀ x ∈ pre ++ calls.map Prod.snd, ∀ y ∈ pre ++ calls.map Prod.snd,
        y - x < w * 1000) →
      (runEval id (cfgRuleRL name m w) b calls).1 =
        List.replicate (min (m - pre.length) calls.length)
            (ruleAllowVerdict name m w) ++
          List.replicate (calls.length - (m - pre.length)) (ruleDenyVerdict name m w) := by
  induction calls with
  | nil => intro b pre _ _; simp [runEval]
  | cons hd rest ih =>
    intro b pre hb hwin
    obtain ⟨tc, t⟩ := hd
    have htc : tc = tcRead := hcalls (tc, t) (List.mem_cons_self _ _)
    have hrest : ∀ c ∈ rest, c.1 = tcRead := fun c hc => hcalls c (List.mem_cons_of_mem _ hc)
    have hsub : ∀ x ∈ pre ++ rest.map Prod.snd,
        x ∈ pre ++ ((tc, t) :: rest).map Prod.snd := by
      intro x hx
      rcases List.mem_append.mp hx with h | h
      · exact List.mem_append_left _ h
      · exact List.mem_append_right _ (by simp [h])
    have hsub1 : ∀ x ∈ (pre ++ [t]) ++ rest.map Prod.snd,
        x ∈ pre ++ ((tc, t) :: rest).map Prod.snd := by
      intro x hx
      rcases List.mem_append.mp hx with h | h
      · rcases List.mem_append.mp h with h1 | h1
        · exact List.mem_append_left _ h1
        · exact List.mem_append_right _ (by simp at h1; simp [h1])
      · exact List.mem_append_right _ (by simp [h])
    have ht : t ∈ pre ++ ((tc, t) :: rest).map Prod.snd :=
      List.mem_append_right _ (by simp)
    have hkeep : pre.filter (fun x => decide (t - x < w * 1000)) = pre := by
      apply List.filter_eq_self.mpr
      intro x hx
      simp only [decide_eq_true_iff]
      exact hwin x (List.mem_append_left _ hx) t ht
    have hcfg : (cfgRuleRL name m w).globalRateLimit = none := rfl
    have hrules : (cfgRuleRL name m w).rules = [ruleRL name m w] := rfl
    have hrl : (ruleRL name m w).rateLimit = some ⟨m, w⟩ := rfl
    have hname : (ruleRL name m w).name = name := rfl
    simp only [runEval, evaluate, hcfg, hrules, evalRules, htc, matchesRule_ruleRL,
      if_true, hrl, hname, rateCheck, hb, hkeep]
    by_cases hml : m ≤ pre.length
    · have ha : m - pre.length = 0 := Nat.sub_eq_zero_of_le hml
      simp only [if_pos hml, Bool.not_false, if_true]
      rw [ih hrest _ _ (bucketsSet_self ..) (fun x hx y hy => hwin x (hsub x hx) y (hsub y hy))]
      simp [ha, ruleDenyVerdict, ruleRateMsg, ruleRL, List.replicate_succ]
    · have hlt : pre.length < m := Nat.lt_of_not_le hml
      obtain ⟨a, ha⟩ : ∃ a, m - pre.length = a + 1 :=
        ⟨m - pre.length - 1, by omega⟩
      simp only [if_neg hml, Bool.not_true, Bool.false_eq_true, if_false]
      have hrw := ih hrest (bucketsSet b (str "rule:" ++ name) (pre ++ [t])) (pre ++ [t])
        (bucketsSet_self ..) (fun x hx y hy => hwin x (hsub1 x hx) y (hsub1 y hy))
      rw [hrw]
      have hb1 : m - (pre ++ [t]).length = a := by simp; omega
      rw [hb1, ha]
      simp only [List.length_cons, Nat.succ_min_succ, Nat.succ_sub_succ,
        List.replicate_succ, List.cons_append]
      simp [ruleAllowVerdict, ruleVerdictMsg, ruleRL]

/-- C5: across `n > maxCalls` evaluate calls hitting the same rate-limited
bucket within one window, the first `maxCalls` calls pass and exactly
`n - maxCalls` — precisely the calls after the first `maxCalls` — are
denied with the rate-limit rule id.  Proved both for the global bucket
(`__global_rate_limit__`) and for a single rule's own bucket (denials carry
the rule's name). -/
theorem c5_rate_limiter_exact (m w : Nat) (hm : 0 < m) (hw : 0 < w)
    (name : Str) (ts : List Nat) (hn : m < ts.length)
    (hwin : ∀ x ∈ ts, ∀ y ∈ ts, y - x < w * 1000) :
    ((runEval id (cfgGlobalRL m w) emptyBuckets (ts.map (fun t => (tcRead, t)))).1 =
        List.replicate m (defaultVerdict (cfgGlobalRL m w)) ++
          List.replicate (ts.length - m) (globalDenyVerdict m w)) ∧
    (((runEval id (cfgGlobalRL m w) emptyBuckets (ts.map (fun t => (tcRead, t)))).1.countP
        (fun v => v.action = .deny && v.rule = some (str "__global_rate_limit__"))) =
      ts.length - m) ∧
    ((runEval id (cfgRuleRL name m w) emptyBuckets (ts.map (fun t => (tcRead, t)))).1 =
        List.replicate m (ruleAllowVerdict name m w) ++
          List.replicate (ts.length - m) (ruleDenyVerdict name m w)) ∧
    (((runEval id (cfgRuleRL name m w) emptyBuckets (ts.map (fun t => (tcRead, t)))).1.countP
        (fun v => v.action = .deny && v.rule = some name)) =
      ts.length - m) := by
  have hmap : (ts.map (fun t => (tcRead, t))).map Prod.snd = ts := by
    simp
  have hwin' : ∀ x ∈ ([] : List Nat) ++ (ts.map (fun t => (tcRead, t))).map Prod.snd,
      ∀ y ∈ ([] : List Nat) ++ (ts.map (fun t => (tcRead, t))).map Prod.snd,
      y - x < w * 1000 := by
    rw [hmap]
    simpa using hwin
  have hlen : (ts.map (fun t => (tcRead, t))).length = ts.length := by simp
  have hminm : min (m - ([] : List Nat).length) (ts.map (fun t => (tcRead, t))).length = m := by
    simp [hlen]
    omega
  have hg := runEval_global_aux m w (ts.map (fun t => (tcRead, t))) emptyBuckets []
    rfl hwin'
  have hr := runEval_rule_aux name m w (ts.map (fun t => (tcRead, t)))
    (by intro c hc; simp at hc; obtain ⟨t, _, ht⟩ := hc; simp [← ht])
    emptyBuckets [] rfl hwin'
  rw [hminm] at hg hr
  simp only [List.length_nil, Nat.sub_zero] at hg hr
  rw [hlen] at hg hr
  refine ⟨hg, ?_, hr, ?_⟩
  · rw [hg, List.countP_append, countP_replicate, countP_replicate]
    simp [defaultVerdict, cfgGlobalRL, globalDenyVerdict]
  · rw [hr, List.countP_append, countP_replicate, countP_replicate]
    simp [ruleAllowVerdict, ruleDenyVerdict]

/-- C5 witness: three calls at the same instant against `maxCalls = 1`,
`windowSeconds = 1`; the theorem applies and yields one allow followed by
two rate-limit denials in both bucket flavors. -/
theorem c5_rate_limiter_exact_witness :
    (0 < 1 ∧ 0 < 1 ∧ 1 < [0, 0, 0].length ∧
      (∀ x ∈ [0, 0, 0], ∀ y ∈ [0, 0, 0], y - x < 1 * 1000)) ∧
    ((runEval id (cfgGlobalRL 1 1) emptyBuckets ([0, 0, 0].map (fun t => (tcRead, t)))).1 =
        List.replicate 1 (defaultVerdict (cfgGlobalRL 1 1)) ++
          List.replicate ([0, 0, 0].length - 1) (globalDenyVerdict 1 1)) := by
  refine ⟨⟨by decide, by decide, by decide, by decide⟩, ?_⟩
  exact (c5_rate_limiter_exact 1 1 (by decide) (by decide) (str "r") [0, 0, 0]
    (by decide) (by decide)).1

/-! ## C6 — first-match-wins -/

/-- Rules that do not match the call are skipped by the rule loop. -/
theorem evalRules_append_no_match (nfc : Str → Str) (cfg : PolicyConfig)
    (tc : ToolCallParams) (now : Nat) (front rest : List PolicyRule) (b : Buckets)
    (h : ∀ r ∈ front, matchesRule nfc r tc = false) :
    evalRules nfc cfg tc now (front ++ rest) b = evalRules nfc cfg tc now rest b := by
  induction front with
  | nil => rfl
  | cons r fr ih =>
    have hr := h r (List.mem_cons_self r fr)
    simp only [List.cons_append, evalRules, hr, Bool.false_eq_true, if_false]
    exact ih fun x hx => h x (List.mem_cons_of_mem r hx)

/-- C6 (counterexample): the claim fails once rate limits are involved.  In
`cfgBothMatch`, rules `r0` (allow, rate-limited to one call) and `r1` (deny)
both match the call; on the second evaluation the verdict's action is `deny`
although `r0` — the earlier matching rule — has action `allow`: a matching
rule whose bucket is exhausted denies under its own name instead of
returning its action. -/
theorem c6_first_match_counterexample :
    matchesRule id (cfgBothMatch.rules.get ⟨0, by decide⟩) tcT = true ∧
    matchesRule id (cfgBothMatch.rules.get ⟨1, by decide⟩) tcT = true ∧
    (cfgBothMatch.rules.get ⟨0, by decide⟩).action = .allow ∧
    (evaluate id cfgBothMatch
        (evaluate id cfgBothMatch emptyBuckets tcT 0).2 tcT 0).1 =
      { action := .deny, rule := some (str "r0"),
        message := ruleRateMsg (cfgBothMatch.rules.get ⟨0, by decide⟩) ⟨1, 60⟩ } := by
  decide

/-- C6 (amended): first-match-wins, up to rate limiting.  If rules `R_i` and
`R_j` both match with `i < j`, no rule before `R_i` matches, and no global
rate limit is configured, then the verdict names `R_i`; its action is
`R_i`'s action whenever `R_i` carries no rate limit, and in general is
either `R_i`'s action or a rate-limit `deny` under `R_i`'s name. -/
theorem c6_first_match_wins (nfc : Str → Str) (cfg : PolicyConfig) (b : Buckets)
    (tc : ToolCallParams) (now : Nat) (i j : Nat) (hij : i < j)
    (hj : j < cfg.rules.length) (hglob : cfg.globalRateLimit = none)
    (hmi : matchesRule nfc (cfg.rules.get ⟨i, Nat.lt_trans hij hj⟩) tc = true)
    (hmj : matchesRule nfc (cfg.rules.get ⟨j, hj⟩) tc = true)
    (hfirst : ∀ r ∈ cfg.rules.take i, matchesRule nfc r tc = false) :
    (evaluate nfc cfg b tc now).1.rule =
      some (cfg.rules.get ⟨i, Nat.lt_trans hij hj⟩).name ∧
    ((cfg.rules.get ⟨i, Nat.lt_trans hij hj⟩).rateLimit = none →
      (evaluate nfc cfg b tc now).1.action =
        (cfg.rules.get ⟨i, Nat.lt_trans hij hj⟩).action) ∧
    ((evaluate nfc cfg b tc now).1.action =
        (cfg.rules.get ⟨i, Nat.lt_trans hij hj⟩).action ∨
      (evaluate nfc cfg b tc now).1.action = .deny) := by
  have hi : i < cfg.rules.length := Nat.lt_trans hij hj
  have hdecomp : cfg.rules = cfg.rules.take i ++
      (cfg.rules.get ⟨i, hi⟩ :: cfg.rules.drop (i + 1)) := by
    rw [List.get_cons_drop, List.take_append_drop]
  have heval : evaluate nfc cfg b tc now =
      evalRules nfc cfg tc now ((cfg.rules.get ⟨i, hi⟩) :: cfg.rules.drop (i + 1)) b := by
    simp only [evaluate, hglob]
    rw [show evalRules nfc cfg tc now cfg.rules b =
      evalRules nfc cfg tc now (cfg.rules.take i ++
        (cfg.rules.get ⟨i, hi⟩ :: cfg.rules.drop (i + 1))) b from by rw [← hdecomp]]
    exact evalRules_append_no_match nfc cfg tc now _ _ b hfirst
  rw [heval]
  simp only [evalRules, hmi, if_true]
  cases hrl : (cfg.rules.get ⟨i, hi⟩).rateLimit with
  | none =>
    simp only [hrl]
    simp
  | some rl =>
    simp only [hrl]
    refine ⟨?_, ?_, ?_⟩
    · split <;> rfl
    · intro h
      exact absurd h (by simp)
    · split
      · right; rfl
      · left; rfl

/-- C6 witness: the amended theorem applied to `cfgBothMatch` (indices 0 and
1) on a fresh rate limiter, where the verdict is `r0`'s allow. -/
theorem c6_first_match_wins_witness :
    ((0 : Nat) < 1 ∧ 1 < cfgBothMatch.rules.length ∧
      cfgBothMatch.globalRateLimit = none ∧
      matchesRule id (cfgBothMatch.rules.get ⟨0, by decide⟩) tcT = true ∧
      matchesRule id (cfgBothMatch.rules.get ⟨1, by decide⟩) tcT = true ∧
      (∀ r ∈ cfgBothMatch.rules.take 0, matchesRule id r tcT = false)) ∧
    (evaluate id cfgBothMatch emptyBuckets tcT 0).1.rule =
      some (cfgBothMatch.rules.get ⟨0, by decide⟩).name :=
  ⟨⟨by decide, by decide, rfl, by decide, by decide, by decide⟩,
    (c6_first_match_wins id cfgBothMatch emptyBuckets tcT 0 0 1 (by decide)
      (by decide) rfl (by decide) (by decide) (by decide)).1⟩

/-! ## C7 — path-normalization infrastructure -/

/-- Splitting distributes over an explicit separator after a separator-free
piece. -/
theorem splitBy_append_sep {sep : Char} {s : Str} (h : sep ∉ s) (t : Str) :
    splitBy sep (s ++ sep :: t) = s :: splitBy sep t := by
  induction s with
  | nil => simp [splitBy]
  | cons c cs ih =>
    have hc : c ≠ sep := fun e => h (e ▸ List.mem_cons_self c cs)
    have hcs : sep ∉ cs := fun m => h (List.mem_cons_of_mem c m)
    rw [List.cons_append]
    simp only [splitBy]
    rw [if_neg hc, ih hcs]

/-- Splitting after appending a final separator appends one empty piece. -/
theorem splitBy_append_last_sep (sep : Char) (l : Str) :
    splitBy sep (l ++ [sep]) = splitBy sep l ++ [[]] := by
  induction l with
  | nil => simp [splitBy]
  | cons c cs ih =>
    by_cases hc : c = sep
    · simp [splitBy, hc, ih]
    · rw [List.cons_append]
      simp only [splitBy]
      rw [if_neg hc, if_neg hc, ih]
      cases h : splitBy sep cs with
      | nil => exact absurd h (splitBy_ne_nil sep cs)
      | cons s rest => rfl

/-- The pieces produced by `splitBy` do not contain the separator. -/
theorem splitBy_no_sep (sep : Char) (l : Str) : ∀ s ∈ splitBy sep l, sep ∉ s := by
  induction l with
  | nil =>
    intro s hs
    simp [splitBy] at hs
    simp [hs]
  | cons c cs ih =>
    intro s hs
    simp only [splitBy] at hs
    by_cases hc : c = sep
    · rw [if_pos hc] at hs
      rcases List.mem_cons.mp hs with h | h
      · simp [h]
      · exact ih s h
    · rw [if_neg hc] at hs
      cases hsplit : splitBy sep cs with
      | nil => exact absurd hsplit (splitBy_ne_nil sep cs)
      | cons s0 rest =>
        rw [hsplit] at hs
        rcases List.mem_cons.mp hs with h | h
        · subst h
          intro hm
          rcases List.mem_cons.mp hm with h1 | h1
          · exact hc h1.symm
          · exact ih s0 (hsplit ▸ List.mem_cons_self s0 rest) h1
        · exact ih s (hsplit ▸ List.mem_cons_of_mem s0 h)

/-- Every character of a piece of `splitBy` is a character of the input. -/
theorem splitBy_chars (sep : Char) (l : Str) :
    ∀ s ∈ splitBy sep l, ∀ c ∈ s, c ∈ l := by
  induction l with
  | nil =>
    intro s hs
    simp [splitBy] at hs
    simp [hs]
  | cons d cs ih =>
    intro s hs c hc
    simp only [splitBy] at hs
    by_cases hd : d = sep
    · rw [if_pos hd] at hs
      rcases List.mem_cons.mp hs with h | h
      · subst h; cases hc
      · exact List.mem_cons_of_mem d (ih s h c hc)
    · rw [if_neg hd] at hs
      cases hsplit : splitBy sep cs with
      | nil => exact absurd hsplit (splitBy_ne_nil sep cs)
      | cons s0 rest =>
        rw [hsplit] at hs
        rcases List.mem_cons.mp hs with h | h
        · subst h
          rcases List.mem_cons.mp hc with h1 | h1
          · exact h1 ▸ List.mem_cons_self d cs
          · exact List.mem_cons_of_mem d
              (ih s0 (hsplit ▸ List.mem_cons_self s0 rest) c h1)
        · exact List.mem_cons_of_mem d (ih s (hsplit ▸ List.mem_cons_of_mem s0 h) c hc)

/-- Splitting the `/`-join of separator-free segments recovers the
segments. -/
theorem splitBy_pathJoinSegs {segs : List Str} (hne : segs ≠ [])
    (h : ∀ s ∈ segs, '/' ∉ s) : splitBy '/' (pathJoinSegs segs) = segs := by
  induction segs with
  | nil => exact absurd rfl hne
  | cons s rest ih =>
    cases rest with
    | nil =>
      simp only [pathJoinSegs]
      exact splitBy_single (h s (List.mem_cons_self s []))
    | cons s2 r2 =>
      simp only [pathJoinSegs]
      rw [splitBy_append_sep (h s (List.mem_cons_self _ _))]
      rw [ih (by simp) (fun x hx => h x (List.mem_cons_of_mem s hx))]

/-- Characters of the `/`-join come from the segments or are separators. -/
theorem pathJoinSegs_chars (segs : List Str) :
    ∀ c ∈ pathJoinSegs segs, c = '/' ∨ ∃ s ∈ segs, c ∈ s := by
  induction segs with
  | nil => intro c hc; cases hc
  | cons s rest ih =>
    intro c hc
    cases rest with
    | nil =>
      simp only [pathJoinSegs] at hc
      exact Or.inr ⟨s, List.mem_cons_self s [], hc⟩
    | cons s2 r2 =>
      simp only [pathJoinSegs] at hc
      rcases List.mem_append.mp hc with h | h
      · exact Or.inr ⟨s, List.mem_cons_self _ _, h⟩
      · rcases List.mem_cons.mp h with h1 | h1
        · exact Or.inl h1
        · rcases ih c h1 with h2 | ⟨x, hx, hcx⟩
          · exact Or.inl h2
          · exact Or.inr ⟨x, List.mem_cons_of_mem s hx, hcx⟩

/-- The `/`-join of nonempty segments is empty exactly for the empty
list. -/
theorem pathJoinSegs_eq_nil_iff {segs : List Str} (h : ∀ s ∈ segs, s ≠ []) :
    pathJoinSegs segs = [] ↔ segs = [] := by
  cases segs with
  | nil => simp [pathJoinSegs]
  | cons s rest =>
    cases rest with
    | nil =>
      simp only [pathJoinSegs]
      simpa using h s (List.mem_cons_self s [])
    | cons s2 r2 =>
      simp only [pathJoinSegs]
      constructor
      · intro he
        exact absurd (List.append_eq_nil.mp he).1 (h s (List.mem_cons_self _ _))
      · intro he; cases he

/-- The head of the `/`-join of segments whose first segment is nonempty. -/
theorem pathJoinSegs_head {s : Str} {rest : List Str} (h : s ≠ []) :
    (pathJoinSegs (s :: rest)).head? = s.head? := by
  cases rest with
  | nil => rfl
  | cons s2 r2 =>
    simp only [pathJoinSegs]
    cases s with
    | nil => exact absurd rfl h
    | cons c cs => simp

/-- The last character of the `/`-join of nonempty segments is the last
character of the last segment. -/
theorem pathJoinSegs_getLast (segs : List Str) (h : ∀ s ∈ segs, s ≠ []) (hne : segs ≠ []) :
    (pathJoinSegs segs).getLast? = (segs.getLast hne).getLast? := by
  induction segs with
  | nil => exact absurd rfl hne
  | cons s rest ih =>
    cases rest with
    | nil => rfl
    | cons s2 r2 =>
      simp only [pathJoinSegs]
      have hr : pathJoinSegs (s2 :: r2) ≠ [] := by
        intro he
        have := (pathJoinSegs_eq_nil_iff
          (fun x hx => h x (List.mem_cons_of_mem s hx))).mp he
        cases this
      rw [List.getLast?_append_cons]
      cases hj : pathJoinSegs (s2 :: r2) with
      | nil => exact absurd hj hr
      | cons j js =>
        rw [List.getLast?_cons_cons, ← hj]
        rw [ih (fun x hx => h x (List.mem_cons_of_mem s hx)) (by simp)]
        simp [List.getLast_cons]

/-- Plain segments are pushed verbatim by the resolver. -/
theorem pathResolveSegs_plain {l : List Str} (h : ∀ s ∈ l, PlainSeg s) :
    ∀ (A : Bool) (st : List Str), pathResolveSegs A st l = st.reverse ++ l := by
  induction l with
  | nil => intro A st; simp [pathResolveSegs]
  | cons s rest ih =>
    intro A st
    obtain ⟨h1, h2, h3⟩ := h s (List.mem_cons_self s rest)
    simp only [pathResolveSegs]
    rw [if_neg (not_or.mpr ⟨h1, h2⟩), if_neg h3]
    rw [ih (fun x hx => h x (List.mem_cons_of_mem s hx)) A (s :: st)]
    simp

/-- In relative mode, `..` lands on an all-`..` stack by pushing. -/
theorem pathResolveSegs_dd (j : Nat) (l : List Str) :
    pathResolveSegs true (List.replicate j dotDotSeg) (dotDotSeg :: l) =
      pathResolveSegs true (List.replicate (j + 1) dotDotSeg) l := by
  cases j with
  | zero => simp [pathResolveSegs, dotDotSeg, dotSeg, List.replicate]
  | succ n => simp [pathResolveSegs, dotDotSeg, dotSeg, List.replicate_succ]

/-- A second resolver pass over an already-resolved relative segment list
(`..` run followed by plain segments) is the identity. -/
theorem pathResolveSegs_second_rel {r : List Str} (hr : ∀ s ∈ r, PlainSeg s) (k : Nat) :
    pathResolveSegs true [] (List.replicate k dotDotSeg ++ r) =
      List.replicate k dotDotSeg ++ r := by
  suffices h : ∀ j, pathResolveSegs true (List.replicate j dotDotSeg)
      (List.replicate k dotDotSeg ++ r) = List.replicate (j + k) dotDotSeg ++ r by
    simpa using h 0
  induction k with
  | zero =>
    intro j
    have := pathResolveSegs_plain hr true (List.replicate j dotDotSeg)
    simpa using this
  | succ n ih =>
    intro j
    rw [List.replicate_succ, List.cons_append, pathResolveSegs_dd, ih (j + 1)]
    have harith : j + 1 + n = j + (n + 1) := by omega
    rw [harith]

/-- A second resolver pass over an already-resolved absolute segment list is
the identity. -/
theorem pathResolveSegs_second_abs {r : List Str} (hr : ∀ s ∈ r, PlainSeg s) :
    pathResolveSegs false [] r = r := by
  simpa using pathResolveSegs_plain hr false []

/-- Shape of a first resolver pass: the result is a (relative-only) run of
`..` segments followed by plain separator-free segments. -/
theorem pathResolveSegs_shape (A : Bool) (l : List Str) (hl : ∀ s ∈ l, '/' ∉ s) :
    ∀ (p : List Str) (k : Nat), (∀ s ∈ p, GoodSeg s) → (A = false → k = 0) →
    ∃ (k2 : Nat) (r : List Str),
      pathResolveSegs A (p ++ List.replicate k dotDotSeg) l =
        List.replicate k2 dotDotSeg ++ r ∧
      (∀ s ∈ r, GoodSeg s) ∧ (A = false → k2 = 0) := by
  induction l with
  | nil =>
    intro p k hp hk
    refine ⟨k, p.reverse, ?_, ?_, hk⟩
    · simp [pathResolveSegs, List.reverse_append]
    · intro s hs
      exact hp s (List.mem_reverse.mp hs)
  | cons s rest ih =>
    intro p k hp hk
    have hrest : ∀ x ∈ rest, '/' ∉ x := fun x hx => hl x (List.mem_cons_of_mem s hx)
    by_cases h1 : s = [] ∨ s = dotSeg
    · simp only [pathResolveSegs, if_pos h1]
      exact ih hrest p k hp hk
    · by_cases h2 : s = dotDotSeg
      · simp only [pathResolveSegs, if_neg h1, if_pos h2]
        cases p with
        | cons s0 p2 =>
          have hs0 : GoodSeg s0 := hp s0 (List.mem_cons_self s0 p2)
          rw [List.cons_append]
          simp only
          rw [if_neg hs0.1.2.2]
          exact ih hrest p2 k (fun x hx => hp x (List.mem_cons_of_mem s0 hx)) hk
        | nil =>
          cases k with
          | zero =>
            simp only [List.nil_append, List.replicate]
            cases A with
            | true =>
              have := ih hrest [] 1 (by intro x hx; cases hx) (by intro h; cases h)
              simpa [List.replicate] using this
            | false =>
              have := ih hrest [] 0 (by intro x hx; cases hx) (fun _ => rfl)
              simpa [List.replicate] using this
          | succ n =>
            have hA : A = true := by
              cases A with
              | true => rfl
              | false => exact absurd (hk rfl) (by omega)
            subst hA
            rw [List.nil_append, List.replicate_succ]
            have := ih hrest [] (n + 2) (by intro x hx; cases hx) (by intro h; cases h)
            simpa [List.replicate_succ] using this
      · push_neg at h1
        have hgood : GoodSeg s := ⟨⟨h1.1, h1.2, h2⟩, hl s (List.mem_cons_self s rest)⟩
        simp only [pathResolveSegs, if_neg (not_or.mpr h1), if_neg h2]
        have := ih hrest (s :: p) k
          (by
            intro x hx
            rcases List.mem_cons.mp hx with h | h
            · exact h ▸ hgood
            · exact hp x h) hk
        simpa using this

/-- An empty leading segment (from a leading `/`) is skipped. -/
theorem pathResolveSegs_empty_head (A : Bool) (st : List Str) (l : List Str) :
    pathResolveSegs A st ([] :: l) = pathResolveSegs A st l := by
  simp [pathResolveSegs]

/-- An empty final segment (from a trailing `/`) is skipped. -/
theorem pathResolveSegs_empty_tail (A : Bool) (l : List Str) :
    ∀ st, pathResolveSegs A st (l ++ [[]]) = pathResolveSegs A st l := by
  induction l with
  | nil => intro st; simp [pathResolveSegs]
  | cons s rest ih =>
    intro st
    rw [List.cons_append]
    by_cases h1 : s = [] ∨ s = dotSeg
    · simp only [pathResolveSegs, if_pos h1]
      exact ih st
    · by_cases h2 : s = dotDotSeg
      · cases st with
        | nil =>
          simp only [pathResolveSegs, if_neg h1, if_pos h2]
          exact ih _
        | cons top tl =>
          by_cases h3 : top = dotDotSeg
          · simp only [pathResolveSegs, if_neg h1, if_pos h2, if_pos h3]
            exact ih _
          · simp only [pathResolveSegs, if_neg h1, if_pos h2, if_neg h3]
            exact ih _
      · simp only [pathResolveSegs, if_neg h1, if_neg h2]
        exact ih _

/-- Normalizing a rendered normal form (optional leading `/`, resolved
segments joined by `/`, optional trailing `/`) is the identity: the second
pass recovers the same flags and segments.  `hresolve` states that the
resolver leaves the segments unchanged in the mode determined by the
prefix. -/
theorem posixNormalize_render (segs : List Str)
    (hne : ∀ s ∈ segs, s ≠ []) (hnosl : ∀ s ∈ segs, '/' ∉ s)
    (pre suf : Str) (hpre : pre = ['/'] ∨ pre = []) (hsuf : suf = ['/'] ∨ suf = [])
    (hresolve : pathResolveSegs (decide (pre = [])) [] segs = segs)
    (hbody : pathJoinSegs segs ≠ []) :
    posixNormalize (pre ++ pathJoinSegs segs ++ suf) =
      pre ++ pathJoinSegs segs ++ suf := by
  have hsegne : segs ≠ [] := by
    intro h
    exact hbody (by rw [h]; rfl)
  have hbodyhead : (pathJoinSegs segs).head? ≠ some '/' := by
    obtain ⟨s1, segrest, hseg1⟩ : ∃ s1 segrest, segs = s1 :: segrest := by
      cases h : segs with
      | nil => exact absurd h hsegne
      | cons a b => exact ⟨a, b, rfl⟩
    have hs1ne : s1 ≠ [] := hne s1 (hseg1 ▸ List.mem_cons_self s1 segrest)
    have hs1nosl : '/' ∉ s1 := hnosl s1 (hseg1 ▸ List.mem_cons_self s1 segrest)
    rw [hseg1, pathJoinSegs_head hs1ne]
    intro hcontra
    exact hs1nosl (List.mem_of_mem_head? (by rw [hcontra]; rfl))
  have hbodylast : (pathJoinSegs segs).getLast? ≠ some '/' := by
    rw [pathJoinSegs_getLast segs hne hsegne]
    have hlastmem := List.getLast_mem hsegne
    have hlastne : segs.getLast hsegne ≠ [] := hne _ hlastmem
    have hlastnosl : '/' ∉ segs.getLast hsegne := hnosl _ hlastmem
    intro hcontra
    exact hlastnosl (List.mem_of_mem_getLast? (by rw [hcontra]; rfl))
  have hsplitbody : splitBy '/' (pathJoinSegs segs) = segs :=
    splitBy_pathJoinSegs hsegne hnosl
  rcases hpre with hpre | hpre <;> rcases hsuf with hsuf | hsuf <;> subst hpre <;> subst hsuf
  · -- pre = ['/'], suf = ['/']
    have hresA : pathResolveSegs false [] segs = segs := by
      simpa using hresolve
    have hY : (['/'] ++ pathJoinSegs segs ++ ['/'] : Str) =
        '/' :: (pathJoinSegs segs ++ ['/']) := rfl
    rw [hY]
    have hne2 : ('/' :: (pathJoinSegs segs ++ ['/']) : Str) ≠ [] := by simp
    have hlast : (('/' : Char) :: (pathJoinSegs segs ++ ['/'])).getLast? = some '/' := by
      rw [show ('/' :: (pathJoinSegs segs ++ ['/']) : Str) =
        ('/' :: pathJoinSegs segs) ++ ['/'] from by simp]
      exact List.getLast?_concat _
    have hsp : splitBy '/' ('/' :: (pathJoinSegs segs ++ ['/'])) =
        [] :: (segs ++ [[]]) := by
      rw [show splitBy '/' ('/' :: (pathJoinSegs segs ++ ['/'])) =
        [] :: splitBy '/' (pathJoinSegs segs ++ ['/']) from by simp [splitBy]]
      rw [splitBy_append_last_sep, hsplitbody]
    unfold posixNormalize
    rw [if_neg hne2]
    rw [hlast, hsp]
    rw [show (('/' : Char) :: (pathJoinSegs segs ++ ['/'])).head? = some '/' from rfl]
    simp [pathResolveSegs_empty_head, pathResolveSegs_empty_tail, hresA, hbody]
  · -- pre = ['/'], suf = []
    have hresA : pathResolveSegs false [] segs = segs := by
      simpa using hresolve
    have hY : (['/'] ++ pathJoinSegs segs ++ [] : Str) = '/' :: pathJoinSegs segs := by
      simp
    rw [hY]
    have hne2 : ('/' :: pathJoinSegs segs : Str) ≠ [] := by simp
    have hlast : (('/' : Char) :: pathJoinSegs segs).getLast? =
        (pathJoinSegs segs).getLast? :=
      List.getLast?_append_of_ne_nil ['/'] hbody
    have hsp : splitBy '/' ('/' :: pathJoinSegs segs) = [] :: segs := by
      rw [show splitBy '/' ('/' :: pathJoinSegs segs) =
        [] :: splitBy '/' (pathJoinSegs segs) from by simp [splitBy]]
      rw [hsplitbody]
    unfold posixNormalize
    rw [if_neg hne2]
    rw [hlast, hsp]
    rw [show (('/' : Char) :: pathJoinSegs segs).head? = some '/' from rfl]
    simp [pathResolveSegs_empty_head, hresA, hbody, hbodylast]
  · -- pre = [], suf = ['/']
    have hresR : pathResolveSegs true [] segs = segs := by
      simpa using hresolve
    have hY : ([] ++ pathJoinSegs segs ++ ['/'] : Str) =
        pathJoinSegs segs ++ ['/'] := by simp
    rw [hY]
    have hne2 : (pathJoinSegs segs ++ ['/'] : Str) ≠ [] := by simp
    have hhead : (pathJoinSegs segs ++ ['/']).head? = (pathJoinSegs segs).head? :=
      List.head?_append_of_ne_nil _ hbody
    have hlast : (pathJoinSegs segs ++ ['/']).getLast? = some '/' :=
      List.getLast?_concat _
    have hsp : splitBy '/' (pathJoinSegs segs ++ ['/']) = segs ++ [[]] := by
      rw [splitBy_append_last_sep, hsplitbody]
    unfold posixNormalize
    rw [if_neg hne2]
    rw [hhead, hlast, hsp]
    simp [pathResolveSegs_empty_tail, hresR, hbody, hbodyhead]
  · -- pre = [], suf = []
    have hresR : pathResolveSegs true [] segs = segs := by
      simpa using hresolve
    have hY : ([] ++ pathJoinSegs segs ++ [] : Str) = pathJoinSegs segs := by simp
    rw [hY]
    unfold posixNormalize
    rw [if_neg hbody]
    rw [hsplitbody]
    simp [hresR, hbody, hbodyhead, hbodylast]

/-- Node's `path.posix.normalize` is idempotent. -/
theorem posixNormalize_idem (p : Str) :
    posixNormalize (posixNormalize p) = posixNormalize p := by
  by_cases hp : p = []
  · subst hp; decide
  obtain ⟨k, r, hres, hgood, hk0⟩ :=
    pathResolveSegs_shape (!decide (p.head? = some '/')) (splitBy '/' p)
      (splitBy_no_sep '/' p) [] 0 (fun x hx => absurd hx (List.not_mem_nil x))
      (fun _ => rfl)
  simp only [List.nil_append, List.replicate_zero, List.append_nil] at hres
  have hner : ∀ s ∈ List.replicate k dotDotSeg ++ r, s ≠ [] := by
    intro s hs
    rcases List.mem_append.mp hs with h | h
    · rw [List.eq_of_mem_replicate h]; decide
    · exact (hgood s h).1.1
  have hnoslr : ∀ s ∈ List.replicate k dotDotSeg ++ r, '/' ∉ s := by
    intro s hs
    rcases List.mem_append.mp hs with h | h
    · rw [List.eq_of_mem_replicate h]; decide
    · exact (hgood s h).2
  by_cases hbody : pathJoinSegs (List.replicate k dotDotSeg ++ r) = []
  · have hsegnil : List.replicate k dotDotSeg ++ r = [] :=
      (pathJoinSegs_eq_nil_iff hner).mp hbody
    have hval : posixNormalize p = ['/'] ∨ posixNormalize p = ['.', '/'] ∨
        posixNormalize p = dotSeg := by
      unfold posixNormalize
      rw [if_neg hp]
      simp only [hres, hsegnil]
      by_cases hA : p.head? = some '/'
      · left; simp [hA, pathJoinSegs]
      · by_cases hT : p.getLast? = some '/'
        · right; left; simp [hA, hT, pathJoinSegs]
        · right; right; simp [hA, hT, pathJoinSegs]
    rcases hval with h | h | h <;> rw [h] <;> decide
  · by_cases hA : p.head? = some '/'
    · have hk : k = 0 := hk0 (by simp [hA])
      subst hk
      simp only [List.replicate_zero, List.nil_append] at hres hner hnoslr hbody
      by_cases hT : p.getLast? = some '/'
      · have hform : posixNormalize p = ['/'] ++ pathJoinSegs r ++ ['/'] := by
          unfold posixNormalize
          rw [if_neg hp]
          simp only [hres]
          simp [hA, hT, hbody]
        rw [hform]
        exact posixNormalize_render r hner hnoslr ['/'] ['/']
          (Or.inl rfl) (Or.inl rfl)
          (by simpa using pathResolveSegs_second_abs (fun s hs => (hgood s hs).1))
          hbody
      · have hform : posixNormalize p = ['/'] ++ pathJoinSegs r ++ [] := by
          unfold posixNormalize
          rw [if_neg hp]
          simp only [hres]
          simp [hA, hT, hbody]
        rw [hform]
        exact posixNormalize_render r hner hnoslr ['/'] []
          (Or.inl rfl) (Or.inr rfl)
          (by simpa using pathResolveSegs_second_abs (fun s hs => (hgood s hs).1))
          hbody
    · by_cases hT : p.getLast? = some '/'
      · have hform : posixNormalize p =
            [] ++ pathJoinSegs (List.replicate k dotDotSeg ++ r) ++ ['/'] := by
          unfold posixNormalize
          rw [if_neg hp]
          simp only [hres]
          simp [hA, hT, hbody]
        rw [hform]
        exact posixNormalize_render _ hner hnoslr [] ['/']
          (Or.inr rfl) (Or.inl rfl)
          (by simpa using pathResolveSegs_second_rel (fun s hs => (hgood s hs).1) k)
          hbody
      · have hform : posixNormalize p =
            [] ++ pathJoinSegs (List.replicate k dotDotSeg ++ r) ++ [] := by
          unfold posixNormalize
          rw [if_neg hp]
          simp only [hres]
          simp [hA, hT, hbody]
        rw [hform]
        exact posixNormalize_render _ hner hnoslr [] []
          (Or.inr rfl) (Or.inr rfl)
          (by simpa using pathResolveSegs_second_rel (fun s hs => (hgood s hs).1) k)
          hbody

/-- Every segment surviving resolution came from the stack, the input, or is
`..`. -/
theorem pathResolveSegs_mem (A : Bool) (l : List Str) :
    ∀ st s, s ∈ pathResolveSegs A st l → s ∈ st ∨ s ∈ l ∨ s = dotDotSeg := by
  induction l with
  | nil =>
    intro st s hs
    simp only [pathResolveSegs] at hs
    exact Or.inl (List.mem_reverse.mp hs)
  | cons seg rest ih =>
    intro st s hs
    by_cases h1 : seg = [] ∨ seg = dotSeg
    · simp only [pathResolveSegs, if_pos h1] at hs
      rcases ih st s hs with h | h | h
      · exact Or.inl h
      · exact Or.inr (Or.inl (List.mem_cons_of_mem seg h))
      · exact Or.inr (Or.inr h)
    · by_cases h2 : seg = dotDotSeg
      · cases st with
        | nil =>
          by_cases hA : A = true
          · simp only [pathResolveSegs, if_neg h1, if_pos h2, if_pos hA] at hs
            rcases ih [dotDotSeg] s hs with h | h | h
            · exact Or.inr (Or.inr (List.mem_singleton.mp h))
            · exact Or.inr (Or.inl (List.mem_cons_of_mem seg h))
            · exact Or.inr (Or.inr h)
          · simp only [pathResolveSegs, if_neg h1, if_pos h2, if_neg hA] at hs
            rcases ih [] s hs with h | h | h
            · cases h
            · exact Or.inr (Or.inl (List.mem_cons_of_mem seg h))
            · exact Or.inr (Or.inr h)
        | cons top tl =>
          by_cases h3 : top = dotDotSeg
          · simp only [pathResolveSegs, if_neg h1, if_pos h2, if_pos h3] at hs
            rcases ih (dotDotSeg :: top :: tl) s hs with h | h | h
            · rcases List.mem_cons.mp h with h4 | h4
              · exact Or.inr (Or.inr h4)
              · exact Or.inl h4
            · exact Or.inr (Or.inl (List.mem_cons_of_mem seg h))
            · exact Or.inr (Or.inr h)
          · simp only [pathResolveSegs, if_neg h1, if_pos h2, if_neg h3] at hs
            rcases ih tl s hs with h | h | h
            · exact Or.inl (List.mem_cons_of_mem top h)
            · exact Or.inr (Or.inl (List.mem_cons_of_mem seg h))
            · exact Or.inr (Or.inr h)
      · simp only [pathResolveSegs, if_neg h1, if_neg h2] at hs
        rcases ih (seg :: st) s hs with h | h | h
        · rcases List.mem_cons.mp h with h4 | h4
          · exact Or.inr (Or.inl (h4 ▸ List.mem_cons_self seg rest))
          · exact Or.inl h4
        · exact Or.inr (Or.inl (List.mem_cons_of_mem seg h))
        · exact Or.inr (Or.inr h)

/-- Normalization introduces no backslashes. -/
theorem posixNormalize_no_bs {p : Str} (h : '\\' ∉ p) : '\\' ∉ posixNormalize p := by
  by_cases hp : p = []
  · subst hp; decide
  unfold posixNormalize
  rw [if_neg hp]
  simp only []
  have hsegchars : ∀ s ∈ pathResolveSegs (!decide (p.head? = some '/')) []
      (splitBy '/' p), '\\' ∉ s := by
    intro s hs
    rcases pathResolveSegs_mem _ _ [] s hs with h0 | h0 | h0
    · cases h0
    · intro hc
      exact h (splitBy_chars '/' p s h0 _ hc)
    · subst h0; decide
  have hbodychars : '\\' ∉ pathJoinSegs (pathResolveSegs
      (!decide (p.head? = some '/')) [] (splitBy '/' p)) := by
    intro hc
    rcases pathJoinSegs_chars _ _ hc with h0 | ⟨s, hs, hcs⟩
    · cases h0
    · exact hsegchars s hs hcs
  split
  · split
    · decide
    · split
      · decide
      · decide
  · split
    · intro hm
      rcases List.mem_cons.mp hm with h0 | h0
      · cases h0
      · revert h0
        split
        · intro h0
          rcases List.mem_append.mp h0 with h4 | h4
          · exact hbodychars h4
          · simp at h4
        · exact fun h0 => hbodychars h0
    · split
      · intro hm
        rcases List.mem_append.mp hm with h4 | h4
        · exact hbodychars h4
        · simp at h4
      · exact hbodychars

/-- Replacing backslashes leaves no backslash. -/
theorem mapRepl_no_bs (s : Str) :
    '\\' ∉ s.map (fun c => if c = '\\' then '/' else c) := by
  intro h
  obtain ⟨c, _, he⟩ := List.mem_map.mp h
  by_cases h1 : c = '\\'
  · rw [if_pos h1] at he; cases he
  · rw [if_neg h1] at he; exact h1 he

/-- Replacing backslashes is the identity on backslash-free strings. -/
theorem mapRepl_eq_self {s : Str} (h : '\\' ∉ s) :
    s.map (fun c => if c = '\\' then '/' else c) = s := by
  induction s with
  | nil => rfl
  | cons c cs ih =>
    have hc : c ≠ '\\' := fun e => h (e ▸ List.mem_cons_self c cs)
    simp only [List.map_cons, if_neg hc]
    rw [ih (fun m => h (List.mem_cons_of_mem c m))]

/-- The engine's `normalizePath` is idempotent. -/
theorem normalizePath_idem (s : Str) :
    normalizePath (normalizePath s) = normalizePath s := by
  unfold normalizePath
  rw [mapRepl_eq_self (posixNormalize_no_bs (mapRepl_no_bs s))]
  exact posixNormalize_idem _

/-- `normalizeValue` is idempotent, for any NFC model that is itself
idempotent and fixes normalized paths of NFC-fixed strings (true of Unicode
NFC: path normalization only removes characters and re-joins segments with
ASCII `/`, which cannot create new composition opportunities). -/
theorem normalizeValue_idem (nfc : Str → Str)
    (h1 : ∀ s, nfc (nfc s) = nfc s)
    (h2 : ∀ s, nfc s = s → nfc (normalizePath s) = normalizePath s) (v : Str) :
    normalizeValue nfc (normalizeValue nfc v) = normalizeValue nfc v := by
  by_cases hl : looksLikePath (nfc v) = true
  · have hval : normalizeValue nfc v = normalizePath (nfc v) := by
      unfold normalizeValue
      rw [if_pos hl]
    rw [hval]
    have hfix : nfc (normalizePath (nfc v)) = normalizePath (nfc v) := h2 (nfc v) (h1 v)
    unfold normalizeValue
    rw [hfix]
    by_cases hl2 : looksLikePath (normalizePath (nfc v)) = true
    · rw [if_pos hl2]
      exact normalizePath_idem _
    · rw [if_neg hl2]
  · have hval : normalizeValue nfc v = nfc v := by
      unfold normalizeValue
      rw [if_neg hl]
    rw [hval]
    unfold normalizeValue
    rw [h1 v, if_neg hl]

/-- Alias lookup against a single-argument object finds the value exactly
when some alias equals the lowercased key. -/
theorem lookupAliasValue_single (al : List Str) (k v : Str) :
    lookupAliasValue al [(k, v)] = if lowerStr k ∈ al then some v else none := by
  induction al with
  | nil => simp [lookupAliasValue]
  | cons a rest ih =>
    simp only [lookupAliasValue]
    by_cases h : lowerStr k = a
    · simp [List.find?, h]
    · have hfind : List.find? (fun kv => decide (lowerStr kv.1 = a)) [(k, v)] = none := by
        simp [List.find?, h]
      rw [hfind, ih]
      by_cases hm : lowerStr k ∈ rest
      · rw [if_pos hm, if_pos (List.mem_cons_of_mem a hm)]
      · rw [if_neg hm, if_neg (by
          intro hc
          rcases List.mem_cons.mp hc with hc | hc
          · exact h hc
          · exact hm hc)]

/-- Replacing a single argument value by its normalization does not change
argument matching: the engine normalizes the looked-up value anyway. -/
theorem matchArguments_single_norm (nfc : Str → Str)
    (h1 : ∀ s, nfc (nfc s) = nfc s)
    (h2 : ∀ s, nfc s = s → nfc (normalizePath s) = normalizePath s)
    (ra : List (Str × Str)) (k v : Str) :
    matchArguments nfc ra [(k, normalizeValue nfc v)] =
      matchArguments nfc ra [(k, v)] := by
  induction ra with
  | nil => rfl
  | cons kp rest ih =>
    obtain ⟨key, pattern⟩ := kp
    simp only [matchArguments]
    rw [lookupAliasValue_single, lookupAliasValue_single]
    by_cases hm : lowerStr k ∈ getKeyAliases key
    · rw [if_pos hm, if_pos hm]
      simp only
      rw [normalizeValue_idem nfc h1 h2 v, ih]
    · rw [if_neg hm, if_neg hm]

/-- Replacing a single argument value by its normalization does not change
whole-rule matching. -/
theorem matchesRule_single_norm (nfc : Str → Str)
    (h1 : ∀ s, nfc (nfc s) = nfc s)
    (h2 : ∀ s, nfc s = s → nfc (normalizePath s) = normalizePath s)
    (rule : PolicyRule) (name k v : Str) :
    matchesRule nfc rule ⟨name, [(k, normalizeValue nfc v)]⟩ =
      matchesRule nfc rule ⟨name, [(k, v)]⟩ := by
  unfold matchesRule
  cases rule.matchArgs with
  | none => rfl
  | some ra =>
    simp only
    rw [matchArguments_single_norm nfc h1 h2 ra k v]

/-- The rule loop only inspects the tool call through `matchesRule`. -/
theorem evalRules_congr (nfc : Str → Str) (cfg : PolicyConfig) (now : Nat)
    (tc1 tc2 : ToolCallParams)
    (h : ∀ r, matchesRule nfc r tc1 = matchesRule nfc r tc2) :
    ∀ (rules : List PolicyRule) (b : Buckets),
      evalRules nfc cfg tc1 now rules b = evalRules nfc cfg tc2 now rules b := by
  intro rules
  induction rules with
  | nil => intro b; rfl
  | cons r rest ih =>
    intro b
    simp only [evalRules, h r]
    by_cases hm : matchesRule nfc r tc2 = true
    · rw [if_pos hm, if_pos hm]
    · rw [if_neg hm, if_neg hm]
      exact ih b

/-- C7: path normalization commutes with rule evaluation.  For every
configuration, rate-limiter state, tool name and instant, evaluating a call
whose `path` argument is `p` equals evaluating the call whose `path`
argument is the engine's own normalization of `p` (Unicode NFC followed by
path normalization of path-like values).  The NFC model `nfc` is assumed
idempotent and to fix normalized paths of NFC-fixed strings — both
properties of real Unicode NFC. -/
theorem c7_normalization_commutes (nfc : Str → Str)
    (h1 : ∀ s, nfc (nfc s) = nfc s)
    (h2 : ∀ s, nfc s = s → nfc (normalizePath s) = normalizePath s)
    (cfg : PolicyConfig) (b : Buckets) (name p : Str) (now : Nat) :
    evaluate nfc cfg b ⟨name, [(str "path", p)]⟩ now =
      evaluate nfc cfg b ⟨name, [(str "path", normalizeValue nfc p)]⟩ now := by
  have hcong : ∀ r, matchesRule nfc r ⟨name, [(str "path", p)]⟩ =
      matchesRule nfc r ⟨name, [(str "path", normalizeValue nfc p)]⟩ := fun r =>
    (matchesRule_single_norm nfc h1 h2 r name (str "path") p).symm
  unfold evaluate
  cases hg : cfg.globalRateLimit with
  | none => exact evalRules_congr nfc cfg now _ _ hcong cfg.rules b
  | some g =>
    simp only
    split
    · rfl
    · exact evalRules_congr nfc cfg now _ _ hcong cfg.rules _

/-- C7 witness: the theorem applied with the identity NFC model (correct for
ASCII) to a traversal path under `cfgPathRule`. -/
theorem c7_normalization_commutes_witness :
    ((∀ s : Str, id (id s) = id s) ∧
      (∀ s : Str, id s = s → id (normalizePath s) = normalizePath s)) ∧
    evaluate id cfgPathRule emptyBuckets
        ⟨str "read_file", [(str "path", str "/tmp/../x")]⟩ 0 =
      evaluate id cfgPathRule emptyBuckets
        ⟨str "read_file", [(str "path", normalizeValue id (str "/tmp/../x"))]⟩ 0 :=
  ⟨⟨fun _ => rfl, fun _ _ => rfl⟩,
    c7_normalization_commutes id (fun _ => rfl) (fun _ _ => rfl) cfgPathRule
      emptyBuckets (str "read_file") (str "/tmp/../x") 0⟩

/-! ## C3 — tamper evidence of the signed audit chain -/

/-- Signing preserves the number of lines. -/
theorem signEntries_length (hmac : Str → Str) (entries : List Str) :
    ∀ prev seq, (signEntries hmac prev seq entries).length = entries.length := by
  induction entries with
  | nil => intro prev seq; rfl
  | cons e rest ih => intro prev seq; simp [signEntries, ih]

/-- Verifying an untampered signed chain whose starting hash matches never
records a break. -/
theorem verifyGo_signed_ok (hmac : Str → Str) (entries : List Str) :
    ∀ prev seq i fb, verifyGo hmac prev i fb (signEntries hmac prev seq entries) = fb := by
  induction entries with
  | nil => intro prev seq i fb; rfl
  | cons e rest ih =>
    intro prev seq i fb
    simp only [signEntries, verifyGo]
    rw [if_neg (by simp)]
    exact ih _ _ _ _

/-- Verifying an untampered signed chain records no mismatching index. -/
theorem verifyMismatches_signed_ok (hmac : Str → Str) (entries : List Str) :
    ∀ prev seq i, verifyMismatches hmac prev i (signEntries hmac prev seq entries) = [] := by
  induction entries with
  | nil => intro prev seq i; rfl
  | cons e rest ih =>
    intro prev seq i
    simp only [signEntries, verifyMismatches]
    rw [if_neg (by simp)]
    exact ih _ _ _

/-- Signing splits over concatenation of entry lists. -/
theorem signEntries_append (hmac : Str → Str) (xs ys : List Str) :
    ∀ prev seq, signEntries hmac prev seq (xs ++ ys) =
      signEntries hmac prev seq xs ++
        signEntries hmac (chainEnd hmac prev xs) (seq + xs.length) ys := by
  induction xs with
  | nil => intro prev seq; simp [signEntries, chainEnd]
  | cons e rest ih =>
    intro prev seq
    simp only [List.cons_append, signEntries, chainEnd, List.length_cons, List.append_eq]
    rw [ih]
    have : seq + 1 + rest.length = seq + (rest.length + 1) := by omega
    rw [this]

/-- The verification walk passes over an untampered signed prefix, carrying
its chain end and advancing the index. -/
theorem verifyGo_signed_append (hmac : Str → Str) (xs : List Str) :
    ∀ prev seq i fb tail,
      verifyGo hmac prev i fb (signEntries hmac prev seq xs ++ tail) =
        verifyGo hmac (chainEnd hmac prev xs) (i + xs.length) fb tail := by
  induction xs with
  | nil => intro prev seq i fb tail; simp [signEntries, chainEnd]
  | cons e rest ih =>
    intro prev seq i fb tail
    simp only [signEntries, List.cons_append, verifyGo, chainEnd, List.length_cons,
      List.append_eq]
    rw [if_neg (by simp)]
    rw [ih]
    have : i + 1 + rest.length = i + (rest.length + 1) := by omega
    rw [this]

/-- The mismatch collector passes over an untampered signed prefix. -/
theorem verifyMismatches_signed_append (hmac : Str → Str) (xs : List Str) :
    ∀ prev seq i tail,
      verifyMismatches hmac prev i (signEntries hmac prev seq xs ++ tail) =
        verifyMismatches hmac (chainEnd hmac prev xs) (i + xs.length) tail := by
  induction xs with
  | nil => intro prev seq i tail; simp [signEntries, chainEnd]
  | cons e rest ih =>
    intro prev seq i tail
    simp only [signEntries, List.cons_append, verifyMismatches, chainEnd, List.length_cons,
      List.append_eq]
    rw [if_neg (by simp)]
    rw [ih]
    have : i + 1 + rest.length = i + (rest.length + 1) := by omega
    rw [this]

/-- Tampering at the index right after a prefix replaces that line's base. -/
theorem tamperBaseAt_append (xs : List LogLine) (l : LogLine) (rest : List LogLine)
    (b : Str) (n : Nat) (hn : n = xs.length) :
    tamperBaseAt (xs ++ l :: rest) n b = xs ++ { l with base := b } :: rest := by
  subst hn
  induction xs with
  | nil => rfl
  | cons x xt ih =>
    simp only [List.cons_append, List.length_cons, tamperBaseAt, List.append_eq, ih]

/-- C3 (counterexample): the claim that corruption breaks verification from
entry `k` onward — every later entry failing recomputation — is false on the
code.  With a concrete injective HMAC model, tampering with the base fields
of entry 1 of a 3-entry chain makes `verifyChain` report invalid with
`firstBroken = 1`, but entry 2 still passes recomputation because the walk
chains on the *stored* signature (`prevHash = _sig`), resynchronizing after
the tampered line: the mismatching indices are exactly `[1]`, not `[1, 2]`. -/
theorem c3_break_onward_counterexample :
    (verifyChain (fun p => 'H' :: p)
        (tamperBaseAt (signLog (fun p => 'H' :: p) [str "e0", str "e1", str "e2"])
          1 (str "EVIL"))).valid = false ∧
    (verifyChain (fun p => 'H' :: p)
        (tamperBaseAt (signLog (fun p => 'H' :: p) [str "e0", str "e1", str "e2"])
          1 (str "EVIL"))).firstBroken = some 1 ∧
    verifyMismatches (fun p => 'H' :: p) (str "genesis") 0
        (tamperBaseAt (signLog (fun p => 'H' :: p) [str "e0", str "e1", str "e2"])
          1 (str "EVIL")) = [1] ∧
    2 ∉ verifyMismatches (fun p => 'H' :: p) (str "genesis") 0
        (tamperBaseAt (signLog (fun p => 'H' :: p) [str "e0", str "e1", str "e2"])
          1 (str "EVIL")) := by
  decide

/-- C3 (amended): modifying the base fields of the persisted entry at index
`k` (keeping its stored signature) makes `verifyChain` report the chain
invalid with `firstBroken = k`; entry `k` is the only entry that fails
signature recomputation — verification resynchronizes on the stored
signature, so later untampered entries pass.  `hmac` is assumed injective
(collision-freeness of the keyed HMAC). -/
theorem c3_tampered_entry_detected (hmac : Str → Str)
    (hinj : Function.Injective hmac) (entries : List Str) (k : Nat)
    (hk : k < entries.length) (b : Str) (hb : b ≠ entries.get ⟨k, hk⟩) :
    (verifyChain hmac (tamperBaseAt (signLog hmac entries) k b)).valid = false ∧
    (verifyChain hmac (tamperBaseAt (signLog hmac entries) k b)).firstBroken = some k ∧
    verifyMismatches hmac (str "genesis") 0
      (tamperBaseAt (signLog hmac entries) k b) = [k] := by
  have hdecomp : entries = entries.take k ++
      entries.get ⟨k, hk⟩ :: entries.drop (k + 1) := by
    rw [List.get_cons_drop, List.take_append_drop]
  have hlen : (entries.take k).length = k := by
    simp [List.length_take, Nat.min_eq_left (Nat.le_of_lt hk)]
  have hsign : signLog hmac entries =
      signEntries hmac (str "genesis") 0 (entries.take k) ++
        signEntries hmac (chainEnd hmac (str "genesis") (entries.take k)) k
          (entries.get ⟨k, hk⟩ :: entries.drop (k + 1)) := by
    rw [signLog]
    conv_lhs => rw [hdecomp]
    rw [signEntries_append]
    rw [hlen]
    simp
  have hsufx : signEntries hmac (chainEnd hmac (str "genesis") (entries.take k)) k
      (entries.get ⟨k, hk⟩ :: entries.drop (k + 1)) =
      (⟨entries.get ⟨k, hk⟩, some (k + 1),
          some (hmac (entries.get ⟨k, hk⟩ ++ '|' ::
            chainEnd hmac (str "genesis") (entries.take k)))⟩ : LogLine) ::
        signEntries hmac
          (hmac (entries.get ⟨k, hk⟩ ++ '|' ::
            chainEnd hmac (str "genesis") (entries.take k)))
          (k + 1) (entries.drop (k + 1)) := rfl
  have hlen2 : (signEntries hmac (str "genesis") 0 (entries.take k)).length = k := by
    rw [signEntries_length]
    exact hlen
  have htam : tamperBaseAt (signLog hmac entries) k b =
      signEntries hmac (str "genesis") 0 (entries.take k) ++
        (⟨b, some (k + 1),
            some (hmac (entries.get ⟨k, hk⟩ ++ '|' ::
              chainEnd hmac (str "genesis") (entries.take k)))⟩ : LogLine) ::
          signEntries hmac
            (hmac (entries.get ⟨k, hk⟩ ++ '|' ::
              chainEnd hmac (str "genesis") (entries.take k)))
            (k + 1) (entries.drop (k + 1)) := by
    rw [hsign, hsufx]
    exact tamperBaseAt_append _ _ _ _ k hlen2.symm
  have hne : hmac (entries.get ⟨k, hk⟩ ++ '|' ::
      chainEnd hmac (str "genesis") (entries.take k)) ≠
      hmac (b ++ '|' :: chainEnd hmac (str "genesis") (entries.take k)) := by
    intro h
    exact hb (List.append_cancel_right (hinj h)).symm
  have hfb : verifyGo hmac (str "genesis") 0 none
      (tamperBaseAt (signLog hmac entries) k b) = some k := by
    rw [htam, verifyGo_signed_append]
    rw [hlen]
    simp only [verifyGo]
    rw [if_pos ⟨hne, by trivial⟩]
    rw [verifyGo_signed_ok]
    simp
  have hmm : verifyMismatches hmac (str "genesis") 0
      (tamperBaseAt (signLog hmac entries) k b) = [k] := by
    rw [htam, verifyMismatches_signed_append]
    rw [hlen]
    simp only [verifyMismatches]
    rw [if_pos hne]
    rw [verifyMismatches_signed_ok]
    simp
  refine ⟨?_, ?_, hmm⟩
  · simp [verifyChain, hfb]
  · simp [verifyChain, hfb]

/-- C3 witness: the amended theorem applied to the concrete 3-entry chain
with the injective cons-based HMAC model, tampering at index 1. -/
theorem c3_tampered_entry_detected_witness :
    (Function.Injective (fun p : Str => 'H' :: p) ∧ 1 < [str "e0", str "e1", str "e2"].length ∧
      str "EVIL" ≠ [str "e0", str "e1", str "e2"].get ⟨1, by decide⟩) ∧
    (verifyChain (fun p => 'H' :: p)
        (tamperBaseAt (signLog (fun p => 'H' :: p) [str "e0", str "e1", str "e2"])
          1 (str "EVIL"))).valid = false :=
  ⟨⟨fun p q h => by simpa using h, by decide, by decide⟩,
    (c3_tampered_entry_detected (fun p => 'H' :: p) (fun p q h => by simpa using h)
      [str "e0", str "e1", str "e2"] 1 (by decide) (str "EVIL") (by decide)).1⟩

/-! ## C4 — gating of the built-in exfiltration markers -/

/-- A trusted pattern is compiled as soon as the host engine accepts it:
no ReDoS validation runs. -/
theorem safeCompile_trusted (o : JsRegexOracle) (p : ResponsePattern)
    (h : o.compiles p.pattern (p.flags.getD (str "gi")) = true) :
    safeCompile o true p = some p := by
  simp [safeCompile, h]

/-- C4 (counterexample): the claim that the exfiltration markers are in the
compiled pattern set for *every* configuration — in particular with
`detectSecrets` false — is false on the code.  With secret detection turned
off and everything else default, the compiled pattern set is empty: it
contains neither `large-base64-blob` nor `hex-dump`, because
`compilePatterns` gates the exfiltration loop on `this.config.detectSecrets`
just like the secret loop. -/
theorem c4_exfiltration_gated_counterexample :
    compilePatterns allCompileOracle (resolveConfig c4cfg) = [] ∧
    (¬ ∃ p ∈ compilePatterns allCompileOracle (resolveConfig c4cfg),
      p.name = str "large-base64-blob") ∧
    (¬ ∃ p ∈ compilePatterns allCompileOracle (resolveConfig c4cfg),
      p.name = str "hex-dump") := by
  decide

/-- C4 (amended): when `detectSecrets` resolves to true (as it does by
default) the compiled pattern set contains `large-base64-blob` with the
action taken from `base64Action` (default pass) and `hex-dump` with action
pass, provided the host regex engine compiles them; when `detectSecrets`
resolves to false the compiled set has no built-in secret or exfiltration
entry at all — only the PII chunk and the user patterns remain. -/
theorem c4_exfiltration_requires_detect_secrets (o : JsRegexOracle)
    (cfg : ResponseScannerConfig)
    (hc : ∀ p ∈ getExfiltrationPatterns (resolveConfig cfg).base64Action,
      o.compiles p.pattern (p.flags.getD (str "gi")) = true) :
    ((resolveConfig cfg).detectSecrets = true →
      (∃ p ∈ compilePatterns o (resolveConfig cfg),
        p.name = str "large-base64-blob" ∧
          p.action = (resolveConfig cfg).base64Action) ∧
      (∃ p ∈ compilePatterns o (resolveConfig cfg),
        p.name = str "hex-dump" ∧ p.action = ResponseAction.pass)) ∧
    ((resolveConfig cfg).detectSecrets = false →
      compilePatterns o (resolveConfig cfg) =
        (if (resolveConfig cfg).detectPII then
          PII_PATTERNS.filterMap (safeCompile o true)
        else []) ++
          ((resolveConfig cfg).patterns.take
            (resolveConfig cfg).maxPatterns).filterMap (safeCompile o false)) := by
  constructor
  · intro hds
    have hm1 : (⟨str "large-base64-blob",
        str "(?:[A-Za-z0-9+/]\x7b100,\x7d=\x7b0,2\x7d)", none,
        (resolveConfig cfg).base64Action, some (str "exfiltration")⟩ :
          ResponsePattern) ∈
        getExfiltrationPatterns (resolveConfig cfg).base64Action := by
      simp [getExfiltrationPatterns]
    have hm2 : (⟨str "hex-dump",
        str "(?:[0-9a-f]\x7b2\x7d[:\\s])\x7b32,\x7d", some (str "gi"),
        ResponseAction.pass, some (str "exfiltration")⟩ : ResponsePattern) ∈
        getExfiltrationPatterns (resolveConfig cfg).base64Action := by
      simp [getExfiltrationPatterns]
    have h1 := safeCompile_trusted o _ (hc _ hm1)
    have h2 := safeCompile_trusted o _ (hc _ hm2)
    constructor
    · refine ⟨⟨str "large-base64-blob",
          str "(?:[A-Za-z0-9+/]\x7b100,\x7d=\x7b0,2\x7d)", none,
          (resolveConfig cfg).base64Action, some (str "exfiltration")⟩,
        ?_, rfl, rfl⟩
      simp only [compilePatterns, hds, if_true, List.mem_append]
      exact Or.inl (Or.inl (Or.inr (List.mem_filterMap.mpr ⟨_, hm1, h1⟩)))
    · refine ⟨⟨str "hex-dump",
          str "(?:[0-9a-f]\x7b2\x7d[:\\s])\x7b32,\x7d", some (str "gi"),
          ResponseAction.pass, some (str "exfiltration")⟩, ?_, rfl, rfl⟩
      simp only [compilePatterns, hds, if_true, List.mem_append]
      exact Or.inl (Or.inl (Or.inr (List.mem_filterMap.mpr ⟨_, hm2, h2⟩)))
  · intro hds
    simp [compilePatterns, hds]

/-- C4 witness: the amended theorem applied to the default configuration
and an oracle on which every pattern compiles. -/
theorem c4_exfiltration_requires_detect_secrets_witness :
    (∀ p ∈ getExfiltrationPatterns
        (resolveConfig ({} : ResponseScannerConfig)).base64Action,
      allCompileOracle.compiles p.pattern (p.flags.getD (str "gi")) = true) ∧
    ((resolveConfig ({} : ResponseScannerConfig)).detectSecrets = true →
      (∃ p ∈ compilePatterns allCompileOracle
          (resolveConfig ({} : ResponseScannerConfig)),
        p.name = str "large-base64-blob" ∧
          p.action = (resolveConfig ({} : ResponseScannerConfig)).base64Action) ∧
      (∃ p ∈ compilePatterns allCompileOracle
          (resolveConfig ({} : ResponseScannerConfig)),
        p.name = str "hex-dump" ∧ p.action = ResponseAction.pass)) ∧
    ((resolveConfig ({} : ResponseScannerConfig)).detectSecrets = false →
      compilePatterns allCompileOracle (resolveConfig ({} : ResponseScannerConfig)) =
        (if (resolveConfig ({} : ResponseScannerConfig)).detectPII then
          PII_PATTERNS.filterMap (safeCompile allCompileOracle true)
        else []) ++
          ((resolveConfig ({} : ResponseScannerConfig)).patterns.take
            (resolveConfig ({} : ResponseScannerConfig)).maxPatterns).filterMap
            (safeCompile allCompileOracle false)) :=
  ⟨by decide,
    c4_exfiltration_requires_detect_secrets allCompileOracle {} (by decide)⟩

/-! ## C8 — idempotence of scan-then-redact -/

/-- C8 (counterexample): the claim that re-scanning the redacted output is
clean whenever all findings are redact-actions is false on the code.  With
a custom redact-action pattern matching the literal `REDACT`, scanning
`xxREDACTxx` yields only redact findings and the redacted text
`xx[REDACTED]xx`; but the replacement marker `[REDACTED]` itself contains
`REDACT`, so re-scanning the redacted output matches again and resolves to
redact, not pass. -/
theorem c8_idempotence_counterexample :
    (∀ f ∈ (scan litOracle c8cfg (str "xxREDACTxx")).findings,
      f.action = ResponseAction.redact) ∧
    (scan litOracle c8cfg (str "xxREDACTxx")).action = ResponseAction.redact ∧
    (scan litOracle c8cfg (str "xxREDACTxx")).redactedText =
      some (str "xx[REDACTED]xx") ∧
    (scan litOracle c8cfg (str "xx[REDACTED]xx")).action = ResponseAction.redact ∧
    (scan litOracle c8cfg (str "xx[REDACTED]xx")).action ≠ ResponseAction.pass := by
  decide

/-- C8 (amended): re-scanning the redacted output is clean provided the
redacted text matches no compiled pattern and respects the size limit:
whenever `scan` produced a redacted text, that text is within the limit (or
no limit is configured), and no compiled pattern finds a match in it, then
scanning the redacted text resolves to pass.  The original claim fails
without the no-rematch proviso because the literal `[REDACTED]` replacement
can itself create new matches. -/
theorem c8_rescan_pass (o : JsRegexOracle) (cfg : ResponseScannerConfig)
    (x rt : Str) (hrt : (scan o cfg x).redactedText = some rt)
    (hsize : (resolveConfig cfg).maxResponseSize = 0 ∨
      utf8Len rt ≤ (resolveConfig cfg).maxResponseSize)
    (hnomatch : ∀ p ∈ compilePatterns o (resolveConfig cfg),
      o.findAll p.pattern (p.flags.getD (str "gi")) rt = []) :
    (scan o cfg rt).action = ResponseAction.pass := by
  by_cases he : (resolveConfig cfg).enabled
  · have hsf : sizeFindings (resolveConfig cfg) (utf8Len rt) = [] := by
      rcases hsize with h0 | hle
      · simp [sizeFindings, h0]
      · simp only [sizeFindings, ite_eq_right_iff]
        intro hh
        omega
    have hpf : patternFindings o (compilePatterns o (resolveConfig cfg)) rt = [] := by
      rw [patternFindings]
      rw [List.filterMap_eq_nil_iff]
      intro p hp
      simp [hnomatch p hp]
    simp [scan, he, hsf, hpf]
  · simp [scan, he] at hrt

/-- C8 witness: the amended theorem at a concrete custom pattern `SECRET`
on the input `aaSECRETbb`, whose redaction `aa[REDACTED]bb` matches no
compiled pattern. -/
theorem c8_rescan_pass_witness :
    ((scan litOracle c8wcfg (str "aaSECRETbb")).redactedText =
        some (str "aa[REDACTED]bb") ∧
      ((resolveConfig c8wcfg).maxResponseSize = 0 ∨
        utf8Len (str "aa[REDACTED]bb") ≤ (resolveConfig c8wcfg).maxResponseSize) ∧
      (∀ p ∈ compilePatterns litOracle (resolveConfig c8wcfg),
        litOracle.findAll p.pattern (p.flags.getD (str "gi"))
          (str "aa[REDACTED]bb") = [])) ∧
    (scan litOracle c8wcfg (str "aa[REDACTED]bb")).action = ResponseAction.pass :=
  ⟨⟨by decide, Or.inl (by decide), by decide⟩,
    c8_rescan_pass litOracle c8wcfg (str "aaSECRETbb") (str "aa[REDACTED]bb")
      (by decide) (Or.inl (by decide)) (by decide)⟩

/-! ## C2 — malformed tools/call requests pass through untouched -/

/-- C2: a client message whose method is tools/call but whose params are
absent, or whose `params.name` is not a string, is forwarded to the child
server unchanged, with only the `total` statistic incremented; since this
holds for *every* choice of kill switch, injection detector, egress control,
policy engine and chain detector behavior, no stage of the security
pipeline runs and no deny response is sent. -/
theorem c2_malformed_tool_call_forwarded (opts : ProxyOptions)
    (st : ProxyStats) (msg : JsonRpcMessageM)
    (hm : msg.method = some (str "tools/call"))
    (hbad : msg.params = none ∨ ∃ params, msg.params = some params ∧
      ∀ s, jLookup params (str "name") ≠ some (JVal.jstr s)) :
    handleClientMessage opts st msg =
      ({ st with total := st.total + 1 }, [ProxyEffect.writeToServer msg]) := by
  have hnone : getToolCallParams msg = none := by
    rw [getToolCallParams, if_neg (by simp [hm])]
    rcases hbad with h | ⟨params, hp, hname⟩
    · rw [h]
    · rw [hp]
      cases hl : jLookup params (str "name") with
      | none => simp [hl]
      | some v =>
        cases v with
        | jstr s => exact absurd hl (hname s)
        | jnum n => simp [hl]
        | jbool b => simp [hl]
        | jnull => simp [hl]
        | jarr elems => simp [hl]
        | jobj fields => simp [hl]
  cases ht : isToolCall msg with
  | false => simp [handleClientMessage, ht]
  | true => simp [handleClientMessage, ht, hnone]

/-- C2 witness: a tools/call request without params, handled with no
optional module configured, is forwarded unchanged. -/
theorem c2_malformed_tool_call_forwarded_witness :
    (c2msg.method = some (str "tools/call") ∧ c2msg.params = none) ∧
    handleClientMessage bareOptions {} c2msg =
      ({ ({} : ProxyStats) with total := ({} : ProxyStats).total + 1 },
        [ProxyEffect.writeToServer c2msg]) :=
  ⟨⟨rfl, rfl⟩,
    c2_malformed_tool_call_forwarded bareOptions {} c2msg rfl (Or.inl rfl)⟩

/-! ## C10 — the total statistic and non-tools/call pass-through -/

/-- C10 (counterexample): the claim that every proxy statistic is unchanged
on the non-tools/call pass-through — total being incremented only for
tools/call requests — is false on the code: `this.stats.total++` runs
before the `isToolCall` check.  A concrete ping request is forwarded
unchanged but leaves the proxy with a changed `total`. -/
theorem c10_total_counted_counterexample :
    isToolCall c10msg = false ∧
    handleClientMessage bareOptions {} c10msg =
      ({ ({} : ProxyStats) with total := 1 },
        [ProxyEffect.writeToServer c10msg]) ∧
    (handleClientMessage bareOptions {} c10msg).1.total ≠
      ({} : ProxyStats).total := by
  refine ⟨rfl, rfl, ?_⟩
  decide

/-- C10 (amended): a client message that is not a tools/call request is
forwarded to the child unchanged, and `total` — incremented for *every*
client message, before the tools/call check — is the only statistic that
changes: all six other counters are preserved. -/
theorem c10_non_tool_call_counted_and_forwarded (opts : ProxyOptions)
    (st : ProxyStats) (msg : JsonRpcMessageM) (h : isToolCall msg = false) :
    handleClientMessage opts st msg =
      ({ st with total := st.total + 1 }, [ProxyEffect.writeToServer msg]) ∧
    (handleClientMessage opts st msg).1.total = st.total + 1 ∧
    (handleClientMessage opts st msg).1.forwarded = st.forwarded ∧
    (handleClientMessage opts st msg).1.denied = st.denied ∧
    (handleClientMessage opts st msg).1.prompted = st.prompted ∧
    (handleClientMessage opts st msg).1.scanned = st.scanned ∧
    (handleClientMessage opts st msg).1.responseBlocked = st.responseBlocked ∧
    (handleClientMessage opts st msg).1.responseRedacted = st.responseRedacted := by
  have heq : handleClientMessage opts st msg =
      ({ st with total := st.total + 1 }, [ProxyEffect.writeToServer msg]) := by
    simp [handleClientMessage, h]
  refine ⟨heq, ?_, ?_, ?_, ?_, ?_, ?_, ?_⟩ <;> rw [heq]

/-- C10 witness: the amended theorem at a concrete ping request with no
optional module configured. -/
theorem c10_non_tool_call_counted_and_forwarded_witness :
    isToolCall c10msg = false ∧
    (handleClientMessage bareOptions {} c10msg =
      ({ ({} : ProxyStats) with total := ({} : ProxyStats).total + 1 },
        [ProxyEffect.writeToServer c10msg]) ∧
    (handleClientMessage bareOptions {} c10msg).1.total =
      ({} : ProxyStats).total + 1 ∧
    (handleClientMessage bareOptions {} c10msg).1.forwarded =
      ({} : ProxyStats).forwarded ∧
    (handleClientMessage bareOptions {} c10msg).1.denied =
      ({} : ProxyStats).denied ∧
    (handleClientMessage bareOptions {} c10msg).1.prompted =
      ({} : ProxyStats).prompted ∧
    (handleClientMessage bareOptions {} c10msg).1.scanned =
      ({} : ProxyStats).scanned ∧
    (handleClientMessage bareOptions {} c10msg).1.responseBlocked =
      ({} : ProxyStats).responseBlocked ∧
    (handleClientMessage bareOptions {} c10msg).1.responseRedacted =
      ({} : ProxyStats).responseRedacted) :=
  ⟨rfl, c10_non_tool_call_counted_and_forwarded bareOptions {} c10msg rfl⟩

/-! ## C9 — kill switch flag invariants -/

/-- C9 (counterexample): the claim that `isActive()` returns the OR of the
programmatic flag and the file flag is false on the code: `isActive` first
returns false whenever the switch is configured disabled.  A switch
constructed with `enabled: false` and then programmatically activated has
the OR of its flags true while `isActive()` is false. -/
theorem c9_or_of_flags_counterexample :
    (c9state.manuallyActive || c9state.fileActive) = true ∧
    isActiveKS c9state = false := by
  decide

/-- C9 (amended): `isActive()` is the configured `enabled` flag AND the OR
of the programmatic and the file flag (so the plain OR only when the
switch is enabled); a poll that finds no kill file clears the file flag
but preserves the programmatic flag; and `deactivate()` clears the
programmatic flag but preserves the file flag. -/
theorem c9_kill_switch_flags (s : KillSwitchState) (ex : Str → Bool)
    (now : Str)
    (hnofile : findKillFile ex s.checkDirs s.killFileNames = none) :
    isActiveKS s = (s.enabled && (s.manuallyActive || s.fileActive)) ∧
    (checkKillFiles ex now s).fileActive = false ∧
    (checkKillFiles ex now s).manuallyActive = s.manuallyActive ∧
    (deactivate s).manuallyActive = false ∧
    (deactivate s).fileActive = s.fileActive := by
  refine ⟨?_, ?_, ?_, ?_, ?_⟩
  · rw [isActiveKS]
    cases s.enabled <;> simp
  · simp only [checkKillFiles, hnofile]
    cases hf : s.fileActive <;> cases hm' : s.manuallyActive <;>
      simp [hf, hm']
  · simp only [checkKillFiles, hnofile]
    cases hf : s.fileActive <;> cases hm' : s.manuallyActive <;>
      simp [hf, hm']
  · cases hf : s.fileActive <;> simp [deactivate, hf]
  · cases hf : s.fileActive <;> simp [deactivate, hf]

/-- C9 witness: the amended theorem at the default-configured switch in an
environment with no kill file. -/
theorem c9_kill_switch_flags_witness :
    findKillFile (fun _ => false) c9wstate.checkDirs c9wstate.killFileNames =
      none ∧
    (isActiveKS c9wstate =
      (c9wstate.enabled && (c9wstate.manuallyActive || c9wstate.fileActive)) ∧
    (checkKillFiles (fun _ => false) (str "t1") c9wstate).fileActive = false ∧
    (checkKillFiles (fun _ => false) (str "t1") c9wstate).manuallyActive =
      c9wstate.manuallyActive ∧
    (deactivate c9wstate).manuallyActive = false ∧
    (deactivate c9wstate).fileActive = c9wstate.fileActive) :=
  ⟨by decide, c9_kill_switch_flags c9wstate (fun _ => false) (str "t1") (by decide)⟩

end AgentWall
